import Mathlib

/-!
Verification of the geometric-multigrid script `src/gmg/gmg.py`.

The script defines three PETSc wrappers (`direct`, `smoother`, `residual`),
the V-cycle engine `mg`, and module-level code that builds the Galerkin
hierarchy (`ruse[i] = puse[i]` transposed, `Alist[i+1] = PtAP(Alist[i], puse[i])`).

Embedding choices, following the spec's own component boundaries (the
sparse linear-algebra kernels are external collaborators the core merely
consumes):

* Vectors and matrices are exact-rational data: a dimension together with an
  entry function.  `matVec`, `vsub`, `vadd`, `transposeM`, `matMul` are the
  standard componentwise/sum definitions; `ptap A P` is the semantics of
  PETSc `Mat.PtAP`, namely the triple product of the transpose of `P`, `A`
  and `P`.
* The three external solver primitives consumed by the engine - the KSP
  smoother configured with a fixed (ksptype, pctype) pair, the LU direct
  solve, and the 2-norm `PETSc.Vec.norm(resh, 2)` - are an abstract record
  `Prims`.  Every control-flow theorem below holds for every instantiation,
  which is exactly the contract the source code relies on.
* The Python lists `blist`/`uhlist` start as `[None] * N_levels`, so the
  mutable engine state `St` holds lists of `Option Vec`.  Reading a list out
  of range is a Python `IndexError`, feeding a `None` entry to an arithmetic
  operation or a PETSc call is a `TypeError`; both abort the run carrying the
  state reached so far.  Each transcription function follows its Python
  statement list line by line, including evaluation order of the indexing
  expressions, and records an `Event` per engine operation so that theorems
  can speak about the exact operation sequence of a run.
-/

namespace GMG

/-- Dense exact-arithmetic vector: a dimension and an entry function. -/
structure Vec where
  dim : ℕ
  ent : ℕ → ℚ

/-- Dense exact-arithmetic matrix: row and column counts and an entry function. -/
structure Mat where
  rows : ℕ
  cols : ℕ
  ent : ℕ → ℕ → ℚ

/-- Matrix-vector product, the `Ah * xh` of the script. -/
def matVec (A : Mat) (v : Vec) : Vec :=
  ⟨A.rows, fun i => (Finset.range A.cols).sum (fun k => A.ent i k * v.ent k)⟩

/-- Componentwise vector subtraction, the `bh - Ah * xh` of the script. -/
def vsub (x y : Vec) : Vec := ⟨x.dim, fun i => x.ent i - y.ent i⟩

/-- Componentwise vector addition, the in-place `+=` of the ascent phase. -/
def vadd (x y : Vec) : Vec := ⟨x.dim, fun i => x.ent i + y.ent i⟩

/-- Matrix transpose, the semantics of `puse[il].transpose(ruse[il])`. -/
def transposeM (P : Mat) : Mat := ⟨P.cols, P.rows, fun i j => P.ent j i⟩

/-- Matrix product. -/
def matMul (A B : Mat) : Mat :=
  ⟨A.rows, B.cols, fun i j => (Finset.range A.cols).sum (fun k => A.ent i k * B.ent k j)⟩

/-- Semantics of PETSc `Alist[il-1].PtAP(puse[il-1], Alist[il])`: the Galerkin
triple product of the transpose of `P`, then `A`, then `P`. -/
def ptap (A P : Mat) : Mat := matMul (transposeM P) (matMul A P)

/-- The three external PETSc primitives the engine consumes, per the spec an
injected interface.  `smooth A b n x` models the `smoother` function of the
script (a KSP solve with fixed ksptype/pctype, initial guess `x`, `max_it = n`,
returning the mutated `x`); `direct` models the LU coarse solve; `vnorm`
models `PETSc.Vec.norm(resh, 2)`. -/
structure Prims where
  smooth : Mat → Vec → ℕ → Vec → Vec
  direct : Mat → Vec → Vec
  vnorm : Vec → ℚ

/-- Transcription of the script's `residual(Ah, bh, xh)`: the norm of
`bh - Ah * xh`, delegated to the external norm primitive. -/
def residual (pr : Prims) (Ah : Mat) (bh xh : Vec) : ℚ :=
  pr.vnorm (vsub bh (matVec Ah xh))

/-- Python exceptions the transcription can raise: reading a list index out of
range, or using a `None` buffer entry in arithmetic or a PETSc call. -/
inductive PyErr where
  | indexError : PyErr
  | typeError : PyErr
deriving DecidableEq

/-- One engine operation, recorded in execution order.  `smoothE i n` is a
smoother application on level `i` with sweep count `n`; `restrictE i` is the
residual restriction writing `blist[i+1]`; `directE` is the coarse LU solve;
`correctE j` is the coarse-grid-correction `uhlist[j] += P_j * uhlist[j+1]`;
`reportE` is the per-cycle residual print; `initE i` is the pre-cycling
initial-guess restriction writing `uhlist[i]`. -/
inductive Event where
  | initE : ℕ → Event
  | smoothE : ℕ → ℕ → Event
  | restrictE : ℕ → Event
  | directE : Event
  | correctE : ℕ → Event
  | reportE : Event
deriving DecidableEq

/-- Mutable state of one `mg` run: the per-level RHS list `blist`, the
per-level solution list `uhlist` (both `[None] * N_levels` initially), plus
the recorded operation trace and the printed residual values. -/
structure St where
  blist : List (Option Vec)
  uhlist : List (Option Vec)
  events : List Event
  reports : List ℚ

/-- The read-only inputs of `mg(Ahlist, bh, uh, prolongation, restriction,
N_cycles, N_levels, nu, ksptype, pctype)`: everything except the initial guess
`uh` (the ksptype/pctype pair is abstracted inside `Prims.smooth`). -/
structure Ctx where
  Ahlist : List Mat
  bh : Vec
  prolongation : List Mat
  restriction : List Mat
  Ncycles : ℕ
  Nlevels : ℕ
  nu : ℕ
  prims : Prims

/-- Errors carry the state reached when the exception fired, so theorems can
speak about how much of the run executed before the failure. -/
abbrev Err := PyErr × St

/-- Transcription of lines 83-87, one descent step at level `i`:
`smoother(Ahlist[i], blist[i], nu, uhlist[i], ...)` mutating `uhlist[i]` in
place, then `res = blist[i] - Ahlist[i] * uhlist[i]`, then
`blist[i+1] = restriction[i] * res`. -/
def descent (ctx : Ctx) (i : ℕ) (st : St) : Except Err St :=
  match ctx.Ahlist[i]? with
  | none => Except.error (PyErr.indexError, st)
  | some Ai =>
    match st.blist[i]? with
    | none => Except.error (PyErr.indexError, st)
    | some none => Except.error (PyErr.typeError, st)
    | some (some bi) =>
      match st.uhlist[i]? with
      | none => Except.error (PyErr.indexError, st)
      | some none => Except.error (PyErr.typeError, st)
      | some (some ui) =>
        let ui1 := ctx.prims.smooth Ai bi ctx.nu ui
        let st1 : St := { st with uhlist := st.uhlist.set i (some ui1),
                                  events := st.events ++ [Event.smoothE i ctx.nu] }
        let res := vsub bi (matVec Ai ui1)
        match ctx.restriction[i]? with
        | none => Except.error (PyErr.indexError, st1)
        | some Ri =>
          if i + 1 < st1.blist.length then
            Except.ok { st1 with blist := st1.blist.set (i + 1) (some (matVec Ri res)),
                                 events := st1.events ++ [Event.restrictE i] }
          else Except.error (PyErr.indexError, st1)

/-- Transcription of lines 90-91:
`uhlist[N_levels-1] = direct(Ahlist[N_levels-1], blist[N_levels-1])`. -/
def coarse (ctx : Ctx) (st : St) : Except Err St :=
  match ctx.Ahlist[ctx.Nlevels - 1]? with
  | none => Except.error (PyErr.indexError, st)
  | some Ac =>
    match st.blist[ctx.Nlevels - 1]? with
    | none => Except.error (PyErr.indexError, st)
    | some none => Except.error (PyErr.typeError, st)
    | some (some bc) =>
      if ctx.Nlevels - 1 < st.uhlist.length then
        Except.ok { st with
          uhlist := st.uhlist.set (ctx.Nlevels - 1) (some (ctx.prims.direct Ac bc)),
          events := st.events ++ [Event.directE] }
      else Except.error (PyErr.indexError, st)

/-- Transcription of lines 96-97, one ascent step at level `j`:
`uhlist[j] += prolongation[j] * uhlist[j+1]` in place, then
`smoother(Ahlist[j], blist[j], nu, uhlist[j], ...)` in place. -/
def ascent (ctx : Ctx) (j : ℕ) (st : St) : Except Err St :=
  match ctx.prolongation[j]? with
  | none => Except.error (PyErr.indexError, st)
  | some Pj =>
    match st.uhlist[j + 1]? with
    | none => Except.error (PyErr.indexError, st)
    | some none => Except.error (PyErr.typeError, st)
    | some (some uc) =>
      match st.uhlist[j]? with
      | none => Except.error (PyErr.indexError, st)
      | some none => Except.error (PyErr.typeError, st)
      | some (some uj) =>
        let uj1 := vadd uj (matVec Pj uc)
        let st1 : St := { st with uhlist := st.uhlist.set j (some uj1),
                                  events := st.events ++ [Event.correctE j] }
        match ctx.Ahlist[j]? with
        | none => Except.error (PyErr.indexError, st1)
        | some Aj =>
          match st1.blist[j]? with
          | none => Except.error (PyErr.indexError, st1)
          | some none => Except.error (PyErr.typeError, st1)
          | some (some bj) =>
            Except.ok { st1 with
              uhlist := st1.uhlist.set j (some (ctx.prims.smooth Aj bj ctx.nu uj1)),
              events := st1.events ++ [Event.smoothE j ctx.nu] }

/-- Transcription of lines 100-101:
`res4 = residual(Ahlist[0], bh, uhlist[0])` followed by the print of `res4`.
The printed value is appended to `reports`; note the right-hand side is the
caller's `bh` parameter, not a `blist` entry. -/
def reportStep (ctx : Ctx) (st : St) : Except Err St :=
  match ctx.Ahlist[0]? with
  | none => Except.error (PyErr.indexError, st)
  | some A0 =>
    match st.uhlist[0]? with
    | none => Except.error (PyErr.indexError, st)
    | some none => Except.error (PyErr.typeError, st)
    | some (some u0) =>
      Except.ok { st with events := st.events ++ [Event.reportE],
                          reports := st.reports ++ [residual ctx.prims A0 ctx.bh u0] }

/-- Run a list of indexed steps in sequence, stopping at the first uncaught
exception exactly as a Python `for` loop does. -/
def runSeq (f : ℕ → St → Except Err St) : List ℕ → St → Except Err St
  | [], st => Except.ok st
  | i :: is, st =>
    match f i st with
    | Except.error e => Except.error e
    | Except.ok st1 => runSeq f is st1

/-- Transcription of one iteration of the cycle loop, lines 79-101: the
descent `for i in range(N_levels - 1)`, the coarse direct solve, the ascent
`for j in range(N_levels - 2, -1, -1)`, and the residual report. -/
def mgCycle (ctx : Ctx) (st : St) : Except Err St :=
  match runSeq (descent ctx) (List.range (ctx.Nlevels - 1)) st with
  | Except.error e => Except.error e
  | Except.ok s1 =>
    match coarse ctx s1 with
    | Except.error e => Except.error e
    | Except.ok s2 =>
      match runSeq (ascent ctx) (List.range (ctx.Nlevels - 1)).reverse s2 with
      | Except.error e => Except.error e
      | Except.ok s3 => reportStep ctx s3

/-- Transcription of lines 74-75, one iteration of the pre-cycling loop:
`uhlist[i_level] = restriction[i_level - 1] * uhlist[i_level - 1]`. -/
def initStep (ctx : Ctx) (i : ℕ) (st : St) : Except Err St :=
  match ctx.restriction[i - 1]? with
  | none => Except.error (PyErr.indexError, st)
  | some R =>
    match st.uhlist[i - 1]? with
    | none => Except.error (PyErr.indexError, st)
    | some none => Except.error (PyErr.typeError, st)
    | some (some up) =>
      if i < st.uhlist.length then
        Except.ok { st with uhlist := st.uhlist.set i (some (matVec R up)),
                            events := st.events ++ [Event.initE i] }
      else Except.error (PyErr.indexError, st)

/-- Transcription of lines 66-75: `blist = [None] * N_levels`,
`uhlist = [None] * N_levels`, `blist[0] = bh`, `uhlist[0] = uh`, then the
restriction of the initial guess `for i_level in range(1, N_levels - 1)`. -/
def mgInit (ctx : Ctx) (uh : Vec) : Except Err St :=
  let st0 : St := { blist := List.replicate ctx.Nlevels none,
                    uhlist := List.replicate ctx.Nlevels none,
                    events := [], reports := [] }
  if 0 < st0.blist.length then
    let st1 : St := { st0 with blist := st0.blist.set 0 (some ctx.bh) }
    if 0 < st1.uhlist.length then
      let st2 : St := { st1 with uhlist := st1.uhlist.set 0 (some uh) }
      runSeq (initStep ctx) (List.range' 1 (ctx.Nlevels - 2)) st2
    else Except.error (PyErr.indexError, st1)
  else Except.error (PyErr.indexError, st0)

/-- State of the run after the initialization and the first `k` iterations of
the cycle loop `for num_cycle in range(N_cycles)`. -/
def mgAfter (ctx : Ctx) (uh : Vec) (k : ℕ) : Except Err St :=
  match mgInit ctx uh with
  | Except.error e => Except.error e
  | Except.ok st0 => runSeq (fun _ => mgCycle ctx) (List.range k) st0

/-- Transcription of the whole of `mg` (lines 51-103): initialization,
`N_cycles` V-cycles, and the final `return uhlist[0]`.  The returned value is
the level-0 buffer entry (an `Option Vec`, since the Python object could in
principle be `None`), paired with the final state. -/
def mg (ctx : Ctx) (uh : Vec) : Except Err (Option Vec × St) :=
  match mgAfter ctx uh ctx.Ncycles with
  | Except.error e => Except.error e
  | Except.ok stF =>
    match stF.uhlist[0]? with
    | none => Except.error (PyErr.indexError, stF)
    | some ov => Except.ok (ov, stF)

/-- Element `i` of a matrix list with a zero default, used by the engine
description functions below to name the matrices `A_i`, `R_i`, `P_i`. -/
def mfetch (l : List Mat) (i : ℕ) : Mat := (l[i]?).getD ⟨0, 0, fun _ _ => 0⟩

/-- Level-`i` buffer value of an `Option Vec` list with a zero default. -/
def ofetch (l : List (Option Vec)) (i : ℕ) : Vec := ((l[i]?).getD none).getD ⟨0, fun _ => 0⟩

/-- The system matrix of level `i`. -/
def Alvl (ctx : Ctx) (i : ℕ) : Mat := mfetch ctx.Ahlist i

/-- The restriction operator from level `i` to level `i + 1`. -/
def Rop (ctx : Ctx) (i : ℕ) : Mat := mfetch ctx.restriction i

/-- The prolongation operator from level `i + 1` to level `i`. -/
def Pop (ctx : Ctx) (i : ℕ) : Mat := mfetch ctx.prolongation i

/-- Current level-`i` solution value of a state. -/
def uOf (st : St) (i : ℕ) : Vec := ofetch st.uhlist i

/-- Current level-`i` RHS value of a state. -/
def bOf (st : St) (i : ℕ) : Vec := ofetch st.blist i

/-- The RHS produced at level `i` during one V-cycle started from state `st`:
level 0 keeps its RHS, and level `i + 1` receives the restriction of the
post-pre-smoothing residual of level `i`, exactly steps 1-3 of the descent. -/
def specB (ctx : Ctx) (st : St) : ℕ → Vec
  | 0 => bOf st 0
  | i + 1 =>
    let bi := specB ctx st i
    let ui := ctx.prims.smooth (Alvl ctx i) bi ctx.nu (uOf st i)
    matVec (Rop ctx i) (vsub bi (matVec (Alvl ctx i) ui))

/-- The pre-smoothed solution at level `i` during one V-cycle started from
`st`: `nu` smoother sweeps against `A_i` and this cycle's RHS, warm-started
from the current `uhlist[i]`. -/
def preU (ctx : Ctx) (st : St) (i : ℕ) : Vec :=
  ctx.prims.smooth (Alvl ctx i) (specB ctx st i) ctx.nu (uOf st i)

/-- The exact coarse solve of one V-cycle started from `st`. -/
def coarseU (ctx : Ctx) (st : St) : Vec :=
  ctx.prims.direct (Alvl ctx (ctx.Nlevels - 1)) (specB ctx st (ctx.Nlevels - 1))

/-- Solution values of the ascent phase, indexed by the distance `k` above the
finest level reached so far: `postAux 0` is the coarse solve, and each further
step prolongs, corrects and post-smooths at level `N_levels - 1 - k`. -/
def postAux (ctx : Ctx) (st : St) : ℕ → Vec
  | 0 => coarseU ctx st
  | k + 1 =>
    let j := ctx.Nlevels - 1 - (k + 1)
    let uc := vadd (preU ctx st j) (matVec (Pop ctx j) (postAux ctx st k))
    ctx.prims.smooth (Alvl ctx j) (specB ctx st j) ctx.nu uc

/-- Final solution of level `j` after one V-cycle started from `st`. -/
def postU (ctx : Ctx) (st : St) (j : ℕ) : Vec := postAux ctx st (ctx.Nlevels - 1 - j)

/-- The initial-guess value restricted down `i` levels before cycling begins:
`uInit 0` is the caller's guess and `uInit (i+1) = R_i * uInit i`. -/
def uInit (ctx : Ctx) (uh : Vec) : ℕ → Vec
  | 0 => uh
  | i + 1 => matVec (Rop ctx i) (uInit ctx uh i)

/-- The exact operation sequence of one V-cycle on `N` levels with sweep
count `n`: pre-smooth and restrict on levels `0 .. N-2` in increasing order,
one coarse direct solve, correct and post-smooth on levels `N-2 .. 0` in
decreasing order, then one residual report. -/
def cycleEvents (N n : ℕ) : List Event :=
  ((List.range (N - 1)).flatMap (fun i => [Event.smoothE i n, Event.restrictE i]))
    ++ [Event.directE]
    ++ (((List.range (N - 1)).reverse).flatMap (fun j => [Event.correctE j, Event.smoothE j n]))
    ++ [Event.reportE]

/-- The operation sequence of the pre-cycling initialization on `N` levels. -/
def initEvents (N : ℕ) : List Event := (List.range' 1 (N - 2)).map Event.initE

/-- State reached after `k` cycles, with the error state as a harmless
default; the lemmas below only use it where the run is proven successful. -/
def stSeq (ctx : Ctx) (uh : Vec) (k : ℕ) : St :=
  match mgAfter ctx uh k with
  | Except.ok s => s
  | Except.error e => e.2

/-- A structurally valid configuration: at least two levels, one system matrix
per level and one transfer operator per non-coarsest level (the data-model
invariant of the spec). -/
def GoodCtx (ctx : Ctx) : Prop :=
  2 ≤ ctx.Nlevels ∧ ctx.Ahlist.length = ctx.Nlevels ∧
    ctx.restriction.length = ctx.Nlevels - 1 ∧
    ctx.prolongation.length = ctx.Nlevels - 1

/-- A state the cycle loop can run on: the two buffer lists have one slot per
level, every solution slot except possibly the coarsest one is populated, and
the finest RHS slot is populated. -/
def GoodSt (ctx : Ctx) (st : St) : Prop :=
  st.blist.length = ctx.Nlevels ∧ st.uhlist.length = ctx.Nlevels ∧
    (∀ i, i ≤ ctx.Nlevels - 2 → ∃ v, st.uhlist[i]? = some (some v)) ∧
    (∃ w, st.blist[0]? = some (some w))

/-- Transcription of the module-level hierarchy construction, lines 163-178:
`ruse = [None] * (nl - 1)`, `Alist = [None] * nl`, `ruse[0]` is the transpose
of `puse[0]`, `Alist[0] = A`, then for `il in range(1, nl - 1)` the transpose
of `puse[il]` and the Galerkin product `Alist[il-1].PtAP(puse[il-1], Alist[il])`,
and finally the coarsest `Alist[nl-1]` by one more `PtAP`.  `none` is a Python
exception (an out-of-range index or a PETSc call on a `None` entry). -/
def buildLoop (puse : List Mat) : List ℕ → List (Option Mat) × List (Option Mat) →
    Option (List (Option Mat) × List (Option Mat))
  | [], s => some s
  | il :: rest, (ruse, Alist) =>
    match puse[il]? with
    | none => none
    | some Pil =>
      if il < ruse.length then
        let ruse1 := ruse.set il (some (transposeM Pil))
        match Alist[il - 1]? with
        | none => none
        | some none => none
        | some (some Aprev) =>
          match puse[il - 1]? with
          | none => none
          | some Pprev =>
            if il < Alist.length then
              buildLoop puse rest (ruse1, Alist.set il (some (ptap Aprev Pprev)))
            else none
      else none

/-- The whole module-level construction for a given finest matrix `A`,
prolongation list `puse` and level count `nl`. -/
def build (A : Mat) (puse : List Mat) (nl : ℕ) :
    Option (List (Option Mat) × List (Option Mat)) :=
  let ruse0 : List (Option Mat) := List.replicate (nl - 1) none
  let Alist0 : List (Option Mat) := List.replicate nl none
  match puse[0]? with
  | none => none
  | some P0 =>
    if 0 < ruse0.length then
      let ruse1 := ruse0.set 0 (some (transposeM P0))
      if 0 < Alist0.length then
        let Alist1 := Alist0.set 0 (some A)
        match buildLoop puse (List.range' 1 (nl - 2)) (ruse1, Alist1) with
        | none => none
        | some (ruse2, Alist2) =>
          match Alist2[nl - 2]? with
          | none => none
          | some none => none
          | some (some Acc) =>
            match puse[nl - 2]? with
            | none => none
            | some Pcc =>
              if nl - 1 < Alist2.length then
                some (ruse2, Alist2.set (nl - 1) (some (ptap Acc Pcc)))
              else none
      else none
    else none

/-- The mathematical Galerkin recursion the construction implements:
`galerkinA 0` is the supplied finest matrix and each coarser matrix is the
`PtAP` triple product with the prolongation of its finer level. -/
def galerkinA (A : Mat) (puse : List Mat) : ℕ → Mat
  | 0 => A
  | i + 1 => ptap (galerkinA A puse i) (mfetch puse i)

/-! Basic facts about list access, the run combinator, and the single
transcription steps. -/

theorem getElem_eq_mfetch (l : List Mat) (i : ℕ) (h : i < l.length) :
    l[i]? = some (mfetch l i) := by
  rcases List.getElem?_eq_some_iff.mpr ⟨h, rfl⟩ with hx
  simp [mfetch, hx]

theorem ofetch_eq (l : List (Option Vec)) (i : ℕ) (v : Vec)
    (h : l[i]? = some (some v)) : ofetch l i = v := by
  simp [ofetch, h]

theorem runSeq_append (f : ℕ → St → Except Err St) (l₁ l₂ : List ℕ) (st : St) :
    runSeq f (l₁ ++ l₂) st =
      match runSeq f l₁ st with
      | Except.error e => Except.error e
      | Except.ok s => runSeq f l₂ s := by
  induction l₁ generalizing st with
  | nil => simp [runSeq]
  | cons i is ih =>
    simp only [List.cons_append, runSeq]
    cases f i st with
    | error e => rfl
    | ok s1 => exact ih s1

theorem runSeq_single (f : ℕ → St → Except Err St) (i : ℕ) (st : St) :
    runSeq f [i] st = f i st := by
  simp only [runSeq]
  cases f i st <;> rfl

theorem runSeq_append_ok (f : ℕ → St → Except Err St) (l₁ l₂ : List ℕ) (st s : St)
    (h : runSeq f l₁ st = Except.ok s) :
    runSeq f (l₁ ++ l₂) st = runSeq f l₂ s := by
  rw [runSeq_append, h]

theorem runSeq_append_err (f : ℕ → St → Except Err St) (l₁ l₂ : List ℕ) (st : St)
    (e : Err) (h : runSeq f l₁ st = Except.error e) :
    runSeq f (l₁ ++ l₂) st = Except.error e := by
  rw [runSeq_append, h]

theorem descent_eq (ctx : Ctx) (i : ℕ) (st : St) (A B R : Mat) (bi ui : Vec)
    (hA : ctx.Ahlist[i]? = some A) (hb : st.blist[i]? = some (some bi))
    (hu : st.uhlist[i]? = some (some ui)) (hR : ctx.restriction[i]? = some R)
    (hl : i + 1 < st.blist.length) (hBeq : B = A) :
    descent ctx i st = Except.ok
      { blist := st.blist.set (i + 1)
          (some (matVec R (vsub bi (matVec B (ctx.prims.smooth A bi ctx.nu ui))))),
        uhlist := st.uhlist.set i (some (ctx.prims.smooth A bi ctx.nu ui)),
        events := st.events ++ [Event.smoothE i ctx.nu, Event.restrictE i],
        reports := st.reports } := by
  subst hBeq
  simp [descent, hA, hb, hu, hR, hl]

theorem coarse_eq (ctx : Ctx) (st : St) (A : Mat) (bc : Vec)
    (hA : ctx.Ahlist[ctx.Nlevels - 1]? = some A)
    (hb : st.blist[ctx.Nlevels - 1]? = some (some bc))
    (hl : ctx.Nlevels - 1 < st.uhlist.length) :
    coarse ctx st = Except.ok
      { blist := st.blist,
        uhlist := st.uhlist.set (ctx.Nlevels - 1) (some (ctx.prims.direct A bc)),
        events := st.events ++ [Event.directE],
        reports := st.reports } := by
  simp [coarse, hA, hb, hl]

theorem ascent_eq (ctx : Ctx) (j : ℕ) (st : St) (P A : Mat) (uc uj bj : Vec)
    (hP : ctx.prolongation[j]? = some P)
    (hu1 : st.uhlist[j + 1]? = some (some uc))
    (hu0 : st.uhlist[j]? = some (some uj))
    (hA : ctx.Ahlist[j]? = some A)
    (hb : st.blist[j]? = some (some bj)) :
    ascent ctx j st = Except.ok
      { blist := st.blist,
        uhlist := st.uhlist.set j
          (some (ctx.prims.smooth A bj ctx.nu (vadd uj (matVec P uc)))),
        events := st.events ++ [Event.correctE j, Event.smoothE j ctx.nu],
        reports := st.reports } := by
  simp [ascent, hP, hu1, hu0, hA, hb, List.set_set]

theorem report_eq (ctx : Ctx) (st : St) (A : Mat) (u0 : Vec)
    (hA : ctx.Ahlist[0]? = some A) (hu : st.uhlist[0]? = some (some u0)) :
    reportStep ctx st = Except.ok
      { blist := st.blist, uhlist := st.uhlist,
        events := st.events ++ [Event.reportE],
        reports := st.reports ++ [residual ctx.prims A ctx.bh u0] } := by
  simp [reportStep, hA, hu]

theorem initStep_eq (ctx : Ctx) (i : ℕ) (st : St) (R : Mat) (up : Vec)
    (hR : ctx.restriction[i - 1]? = some R)
    (hu : st.uhlist[i - 1]? = some (some up)) (hl : i < st.uhlist.length) :
    initStep ctx i st = Except.ok
      { blist := st.blist,
        uhlist := st.uhlist.set i (some (matVec R up)),
        events := st.events ++ [Event.initE i],
        reports := st.reports } := by
  simp [initStep, hR, hu, hl]

/-! Unfolding equations of the ascent description and the two phase-level
loop characterizations. -/

theorem postU_top (ctx : Ctx) (st : St) :
    postU ctx st (ctx.Nlevels - 1) = coarseU ctx st := by
  simp [postU, Nat.sub_self, postAux]

theorem postU_step (ctx : Ctx) (st : St) (j : ℕ) (h : j + 1 ≤ ctx.Nlevels - 1) :
    postU ctx st j = ctx.prims.smooth (Alvl ctx j) (specB ctx st j) ctx.nu
      (vadd (preU ctx st j) (matVec (Pop ctx j) (postU ctx st (j + 1)))) := by
  have h1 : ctx.Nlevels - 1 - j = (ctx.Nlevels - 1 - (j + 1)) + 1 := by omega
  have h2 : ctx.Nlevels - 1 - (ctx.Nlevels - 1 - (j + 1) + 1) = j := by omega
  rw [postU, h1]
  simp only [postAux, h2]
  rfl

theorem desc_phase (ctx : Ctx) (st : St) (hc : GoodCtx ctx) (hst : GoodSt ctx st) :
    ∀ m, m ≤ ctx.Nlevels - 1 →
    ∃ s, runSeq (descent ctx) (List.range m) st = Except.ok s ∧
      s.blist.length = st.blist.length ∧
      s.uhlist.length = st.uhlist.length ∧
      (∀ j, s.uhlist[j]? = if j < m then some (some (preU ctx st j)) else st.uhlist[j]?) ∧
      (∀ j, s.blist[j]? =
        if 1 ≤ j ∧ j ≤ m then some (some (specB ctx st j)) else st.blist[j]?) ∧
      s.events = st.events ++
        (List.range m).flatMap (fun i => [Event.smoothE i ctx.nu, Event.restrictE i]) ∧
      s.reports = st.reports := by
  obtain ⟨hN, hAl, hRl, hPl⟩ := hc
  obtain ⟨hbl, hul, hue, w, hw⟩ := hst
  intro m
  induction m with
  | zero =>
    intro _
    refine ⟨st, by simp [runSeq], rfl, rfl, ?_, ?_, by simp, rfl⟩
    · intro j; simp
    · intro j
      rw [if_neg (by omega)]
  | succ m ih =>
    intro hm
    obtain ⟨s, hrun, hbl1, hul1, hu1, hb1, hev1, hrep1⟩ := ih (by omega)
    have hA : ctx.Ahlist[m]? = some (mfetch ctx.Ahlist m) :=
      getElem_eq_mfetch _ _ (by omega)
    have hR : ctx.restriction[m]? = some (mfetch ctx.restriction m) :=
      getElem_eq_mfetch _ _ (by omega)
    have hbm : s.blist[m]? = some (some (specB ctx st m)) := by
      rcases Nat.eq_zero_or_pos m with h0 | h0
      · subst h0
        have h1 := hb1 0
        rw [if_neg (by omega)] at h1
        rw [h1, hw]
        simp [specB, bOf, ofetch, hw]
      · have h1 := hb1 m
        rw [if_pos (by omega)] at h1
        exact h1
    have hum : s.uhlist[m]? = some (some (uOf st m)) := by
      have h1 := hu1 m
      rw [if_neg (by omega)] at h1
      obtain ⟨v, hv⟩ := hue m (by omega)
      rw [h1, hv]
      simp [uOf, ofetch, hv]
    have hlen : m + 1 < s.blist.length := by omega
    have hdesc := descent_eq ctx m s (mfetch ctx.Ahlist m) (mfetch ctx.Ahlist m)
      (mfetch ctx.restriction m) (specB ctx st m) (uOf st m) hA hbm hum hR hlen rfl
    have hrun2 : runSeq (descent ctx) (List.range (m + 1)) st = descent ctx m s := by
      rw [List.range_succ, runSeq_append_ok _ _ _ _ _ hrun, runSeq_single]
    rw [hdesc] at hrun2
    refine ⟨_, hrun2, ?_, ?_, ?_, ?_, ?_, ?_⟩
    · simpa using hbl1
    · simpa using hul1
    · intro j
      show (s.uhlist.set m _)[j]? = _
      rcases eq_or_ne j m with hjm | hjm
      · subst hjm
        rw [List.getElem?_set_self (by omega), if_pos (by omega)]
        simp [preU, Alvl]
      · rw [List.getElem?_set_ne (fun h => hjm h.symm)]
        rw [hu1 j]
        rcases Nat.lt_or_ge j m with h1 | h1
        · rw [if_pos h1, if_pos (by omega)]
        · rw [if_neg (by omega), if_neg (by omega)]
    · intro j
      show (s.blist.set (m + 1) _)[j]? = _
      rcases eq_or_ne j (m + 1) with hjm | hjm
      · subst hjm
        rw [List.getElem?_set_self (by omega), if_pos (by omega)]
        simp only [specB, Alvl, Rop]
      · rw [List.getElem?_set_ne (fun h => hjm h.symm)]
        rw [hb1 j]
        rcases Nat.lt_or_ge j 1 with h1 | h1
        · rw [if_neg (by omega), if_neg (by omega)]
        · rcases le_or_lt j m with h2 | h2
          · rw [if_pos (by omega), if_pos (by omega)]
          · rw [if_neg (by omega), if_neg (by omega)]
    · show s.events ++ _ = _
      rw [hev1]
      simp [List.range_succ, List.append_assoc]
    · simpa using hrep1

theorem range_reverse_succ (n : ℕ) :
    (List.range (n + 1)).reverse = n :: (List.range n).reverse := by
  simp [List.range_succ]

theorem asc_phase (ctx : Ctx) (st : St) (hc : GoodCtx ctx)
    (hw : st.blist[0]? = some (some (specB ctx st 0))) :
    ∀ j0, j0 ≤ ctx.Nlevels - 1 →
    ∀ s, s.blist.length = ctx.Nlevels → s.uhlist.length = ctx.Nlevels →
    (∀ j, s.uhlist[j]? = if j < j0 then some (some (preU ctx st j))
      else if j ≤ ctx.Nlevels - 1 then some (some (postU ctx st j)) else st.uhlist[j]?) →
    (∀ j, s.blist[j]? =
      if 1 ≤ j ∧ j ≤ ctx.Nlevels - 1 then some (some (specB ctx st j)) else st.blist[j]?) →
    ∃ s2, runSeq (ascent ctx) (List.range j0).reverse s = Except.ok s2 ∧
      s2.blist.length = s.blist.length ∧ s2.uhlist.length = s.uhlist.length ∧
      (∀ j, s2.uhlist[j]? = if j ≤ ctx.Nlevels - 1 then some (some (postU ctx st j))
        else st.uhlist[j]?) ∧
      (∀ j : ℕ, s2.blist[j]? = s.blist[j]?) ∧
      s2.events = s.events ++
        (List.range j0).reverse.flatMap (fun j => [Event.correctE j, Event.smoothE j ctx.nu]) ∧
      s2.reports = s.reports := by
  obtain ⟨hN, hAl, hRl, hPl⟩ := hc
  intro j0
  induction j0 with
  | zero =>
    intro _ s hsb hsu hu hb
    refine ⟨s, by simp [runSeq], rfl, rfl, ?_, ?_, by simp, rfl⟩
    · intro j
      have h1 := hu j
      rw [if_neg (by omega)] at h1
      exact h1
    · intro j
      rfl
  | succ j0 ih =>
    intro hj0 s hsb hsu hu hb
    have hP : ctx.prolongation[j0]? = some (mfetch ctx.prolongation j0) :=
      getElem_eq_mfetch _ _ (by omega)
    have hA : ctx.Ahlist[j0]? = some (mfetch ctx.Ahlist j0) :=
      getElem_eq_mfetch _ _ (by omega)
    have hu1 : s.uhlist[j0 + 1]? = some (some (postU ctx st (j0 + 1))) := by
      have h1 := hu (j0 + 1)
      rw [if_neg (by omega), if_pos (by omega)] at h1
      exact h1
    have hu0 : s.uhlist[j0]? = some (some (preU ctx st j0)) := by
      have h1 := hu j0
      rw [if_pos (by omega)] at h1
      exact h1
    have hbj : s.blist[j0]? = some (some (specB ctx st j0)) := by
      rcases Nat.eq_zero_or_pos j0 with h0 | h0
      · subst h0
        have h1 := hb 0
        rw [if_neg (by omega)] at h1
        rw [h1, hw]
      · have h1 := hb j0
        rw [if_pos (by omega)] at h1
        exact h1
    have hasc := ascent_eq ctx j0 s (mfetch ctx.prolongation j0) (mfetch ctx.Ahlist j0)
      (postU ctx st (j0 + 1)) (preU ctx st j0) (specB ctx st j0) hP hu1 hu0 hA hbj
    have hval : ctx.prims.smooth (mfetch ctx.Ahlist j0) (specB ctx st j0) ctx.nu
        (vadd (preU ctx st j0) (matVec (mfetch ctx.prolongation j0) (postU ctx st (j0 + 1))))
        = postU ctx st j0 := (postU_step ctx st j0 (by omega)).symm
    rw [hval] at hasc
    obtain ⟨s2, hrun2, hl2b, hl2u, hu2, hb2, hev2, hrep2⟩ := ih (by omega)
      { blist := s.blist, uhlist := s.uhlist.set j0 (some (postU ctx st j0)),
        events := s.events ++ [Event.correctE j0, Event.smoothE j0 ctx.nu],
        reports := s.reports }
      (by simpa using hsb) (by simpa using hsu)
      (by
        intro j
        show (s.uhlist.set j0 _)[j]? = _
        rcases eq_or_ne j j0 with hj | hj
        · subst hj
          rw [List.getElem?_set_self (by omega), if_neg (by omega), if_pos (by omega)]
        · rw [List.getElem?_set_ne (fun h => hj h.symm)]
          have h1 := hu j
          rcases Nat.lt_or_ge j j0 with h2 | h2
          · rw [if_pos (by omega)] at h1
            rw [h1, if_pos h2]
          · rw [if_neg (by omega)] at h1
            rw [if_neg (show ¬ j < j0 by omega)]
            exact h1)
      (by intro j; exact hb j)
    refine ⟨s2, ?_, by rw [hl2b], by simpa using hl2u, hu2, fun j => hb2 j, ?_, hrep2⟩
    · rw [range_reverse_succ]
      show runSeq (ascent ctx) (j0 :: (List.range j0).reverse) s = Except.ok s2
      simp only [runSeq, hasc]
      exact hrun2
    · rw [hev2, range_reverse_succ]
      simp [List.append_assoc]

/-- Everything one V-cycle (one iteration of the `num_cycle` loop) does to the
state, described against the cycle-entry state `st`: every solution buffer
ends at its ascent value, every coarse RHS buffer is overwritten with this
cycle's restricted residual while `blist[0]` is untouched, the trace grows by
the fixed cycle sequence, and one residual value against the caller's `bh` is
reported. -/
def CycleOut (ctx : Ctx) (st s2 : St) : Prop :=
  s2.blist.length = st.blist.length ∧ s2.uhlist.length = st.uhlist.length ∧
    (∀ j, s2.uhlist[j]? = if j ≤ ctx.Nlevels - 1 then some (some (postU ctx st j))
      else st.uhlist[j]?) ∧
    (∀ j, s2.blist[j]? =
      if 1 ≤ j ∧ j ≤ ctx.Nlevels - 1 then some (some (specB ctx st j)) else st.blist[j]?) ∧
    s2.events = st.events ++ cycleEvents ctx.Nlevels ctx.nu ∧
    s2.reports = st.reports ++ [residual ctx.prims (Alvl ctx 0) ctx.bh (postU ctx st 0)]

theorem goodSt_b0 (ctx : Ctx) (st : St) (hst : GoodSt ctx st) :
    st.blist[0]? = some (some (specB ctx st 0)) := by
  obtain ⟨_, _, _, w, hw⟩ := hst
  rw [hw]
  simp [specB, bOf, ofetch, hw]

theorem mgCycle_spec (ctx : Ctx) (st : St) (hc : GoodCtx ctx) (hst : GoodSt ctx st) :
    ∃ s2, mgCycle ctx st = Except.ok s2 ∧ CycleOut ctx st s2 := by
  have hw := goodSt_b0 ctx st hst
  obtain ⟨hN, hAl, hRl, hPl⟩ := hc
  obtain ⟨hbl, hul, hue, w, hw0⟩ := hst
  obtain ⟨s1, hrun1, hbl1, hul1, hu1, hb1, hev1, hrep1⟩ :=
    desc_phase ctx st ⟨hN, hAl, hRl, hPl⟩ ⟨hbl, hul, hue, w, hw0⟩
      (ctx.Nlevels - 1) (le_refl _)
  have hAc : ctx.Ahlist[ctx.Nlevels - 1]? = some (mfetch ctx.Ahlist (ctx.Nlevels - 1)) :=
    getElem_eq_mfetch _ _ (by omega)
  have hbN : s1.blist[ctx.Nlevels - 1]? = some (some (specB ctx st (ctx.Nlevels - 1))) := by
    have h1 := hb1 (ctx.Nlevels - 1)
    rw [if_pos (by omega)] at h1
    exact h1
  have hluN : ctx.Nlevels - 1 < s1.uhlist.length := by omega
  have hco := coarse_eq ctx s1 (mfetch ctx.Ahlist (ctx.Nlevels - 1))
    (specB ctx st (ctx.Nlevels - 1)) hAc hbN hluN
  obtain ⟨s3, hrun3, hbl3, hul3, hu3, hb3, hev3, hrep3⟩ :=
    asc_phase ctx st ⟨hN, hAl, hRl, hPl⟩ hw (ctx.Nlevels - 1) (le_refl _)
      { blist := s1.blist,
        uhlist := s1.uhlist.set (ctx.Nlevels - 1)
          (some (ctx.prims.direct (mfetch ctx.Ahlist (ctx.Nlevels - 1))
            (specB ctx st (ctx.Nlevels - 1)))),
        events := s1.events ++ [Event.directE], reports := s1.reports }
      (by simpa using hbl1.trans hbl) (by simpa using hul1.trans hul)
      (by
        intro j
        show (s1.uhlist.set _ _)[j]? = _
        rcases eq_or_ne j (ctx.Nlevels - 1) with hj | hj
        · subst hj
          rw [List.getElem?_set_self (by omega), if_neg (by omega), if_pos (by omega),
            postU_top]
          rfl
        · rw [List.getElem?_set_ne (fun h => hj h.symm)]
          have h1 := hu1 j
          rcases Nat.lt_or_ge j (ctx.Nlevels - 1) with h2 | h2
          · rw [if_pos h2] at h1
            rw [h1, if_pos h2]
          · rw [if_neg (by omega)] at h1
            rw [h1, if_neg (by omega), if_neg (by omega)])
      (by
        intro j
        show s1.blist[j]? = _
        exact hb1 j)
  have hA0 : ctx.Ahlist[0]? = some (mfetch ctx.Ahlist 0) :=
    getElem_eq_mfetch _ _ (by omega)
  have hu30 : s3.uhlist[0]? = some (some (postU ctx st 0)) := by
    have h1 := hu3 0
    rw [if_pos (by omega)] at h1
    exact h1
  have hrep := report_eq ctx s3 (mfetch ctx.Ahlist 0) (postU ctx st 0) hA0 hu30
  have hcyc : mgCycle ctx st = Except.ok
      { blist := s3.blist, uhlist := s3.uhlist,
        events := s3.events ++ [Event.reportE],
        reports := s3.reports ++
          [residual ctx.prims (mfetch ctx.Ahlist 0) ctx.bh (postU ctx st 0)] } := by
    simp only [mgCycle, hrun1, hco, hrun3, hrep]
  refine ⟨_, hcyc, ?_, ?_, ?_, ?_, ?_, ?_⟩
  · show s3.blist.length = st.blist.length
    rw [hbl3]
    simpa using hbl1
  · show s3.uhlist.length = st.uhlist.length
    rw [hul3]
    simpa using hul1
  · intro j
    show s3.uhlist[j]? = _
    exact hu3 j
  · intro j
    show s3.blist[j]? = _
    rw [hb3 j]
    show s1.blist[j]? = _
    exact hb1 j
  · show s3.events ++ [Event.reportE] = _
    rw [hev3]
    show s1.events ++ [Event.directE] ++ _ ++ _ = _
    rw [hev1]
    simp [cycleEvents, List.append_assoc]
  · show s3.reports ++ _ = _
    rw [hrep3]
    show s1.reports ++ _ = _
    rw [hrep1]
    rfl

theorem cycleOut_good (ctx : Ctx) (st s2 : St) (hst : GoodSt ctx st)
    (h : CycleOut ctx st s2) : GoodSt ctx s2 := by
  obtain ⟨hbl, hul, hue, w, hw⟩ := hst
  obtain ⟨h1, h2, h3, h4, _, _⟩ := h
  refine ⟨h1.trans hbl, h2.trans hul, ?_, ?_⟩
  · intro i hi
    refine ⟨postU ctx st i, ?_⟩
    rw [h3 i, if_pos (by omega)]
  · refine ⟨w, ?_⟩
    rw [h4 0, if_neg (by omega)]
    exact hw

theorem cycleOut_b0 (ctx : Ctx) (st s2 : St) (h : CycleOut ctx st s2) :
    s2.blist[0]? = st.blist[0]? := by
  obtain ⟨_, _, _, h4, _, _⟩ := h
  rw [h4 0, if_neg (by omega)]

theorem init_loop (ctx : Ctx) (uh : Vec) (hN : 2 ≤ ctx.Nlevels)
    (hRl : ctx.restriction.length = ctx.Nlevels - 1) :
    ∀ k m, m + k ≤ ctx.Nlevels - 2 →
    ∀ s : St, s.uhlist.length = ctx.Nlevels →
    (∀ j, s.uhlist[j]? = if j ≤ m then some (some (uInit ctx uh j))
      else if j < ctx.Nlevels then some none else none) →
    ∃ s1, runSeq (initStep ctx) (List.range' (m + 1) k) s = Except.ok s1 ∧
      s1.blist = s.blist ∧ s1.uhlist.length = s.uhlist.length ∧
      (∀ j, s1.uhlist[j]? = if j ≤ m + k then some (some (uInit ctx uh j))
        else if j < ctx.Nlevels then some none else none) ∧
      s1.events = s.events ++ (List.range' (m + 1) k).map Event.initE ∧
      s1.reports = s.reports := by
  intro k
  induction k with
  | zero =>
    intro m _ s _ hchar
    exact ⟨s, by simp [runSeq], rfl, rfl, fun j => hchar j, by simp, rfl⟩
  | succ k ih =>
    intro m hmk s hlen hchar
    have hR : ctx.restriction[m + 1 - 1]? = some (mfetch ctx.restriction m) := by
      simpa using getElem_eq_mfetch ctx.restriction m (by omega)
    have hu : s.uhlist[m + 1 - 1]? = some (some (uInit ctx uh m)) := by
      have h1 := hchar m
      rw [if_pos (le_refl m)] at h1
      simpa using h1
    have hl : m + 1 < s.uhlist.length := by omega
    have hstep := initStep_eq ctx (m + 1) s (mfetch ctx.restriction m) (uInit ctx uh m)
      hR hu hl
    obtain ⟨s1, hrun1, hb1, hl1, hchar1, hev1, hrep1⟩ := ih (m + 1) (by omega)
      { blist := s.blist,
        uhlist := s.uhlist.set (m + 1) (some (matVec (mfetch ctx.restriction m)
          (uInit ctx uh m))),
        events := s.events ++ [Event.initE (m + 1)], reports := s.reports }
      (by simpa using hlen)
      (by
        intro j
        show (s.uhlist.set (m + 1) _)[j]? = _
        rcases eq_or_ne j (m + 1) with hj | hj
        · subst hj
          rw [List.getElem?_set_self (by omega), if_pos (le_refl _)]
          rfl
        · rw [List.getElem?_set_ne (fun h => hj h.symm)]
          have h1 := hchar j
          rcases le_or_lt j m with h2 | h2
          · rw [if_pos h2] at h1
            rw [h1, if_pos (by omega)]
          · rw [if_neg (by omega)] at h1
            rw [h1, if_neg (show ¬ j ≤ m + 1 by omega)])
    refine ⟨s1, ?_, hb1, by simpa using hl1, ?_, ?_, hrep1⟩
    · rw [List.range'_succ (m + 1) k 1]
      show runSeq (initStep ctx) ((m + 1) :: List.range' (m + 1 + 1) k) s = Except.ok s1
      simp only [runSeq, hstep]
      exact hrun1
    · intro j
      have h1 := hchar1 j
      have hmk1 : m + 1 + k = m + (k + 1) := by omega
      rw [hmk1] at h1
      exact h1
    · rw [hev1, List.range'_succ (m + 1) k 1]
      simp [List.append_assoc]

theorem mgInit_spec (ctx : Ctx) (uh : Vec) (hc : GoodCtx ctx) :
    ∃ s0, mgInit ctx uh = Except.ok s0 ∧
      s0.blist.length = ctx.Nlevels ∧ s0.uhlist.length = ctx.Nlevels ∧
      (∀ j, s0.blist[j]? = if j = 0 then some (some ctx.bh)
        else if j < ctx.Nlevels then some none else none) ∧
      (∀ j, s0.uhlist[j]? = if j ≤ ctx.Nlevels - 2 then some (some (uInit ctx uh j))
        else if j < ctx.Nlevels then some none else none) ∧
      s0.events = initEvents ctx.Nlevels ∧ s0.reports = [] := by
  obtain ⟨hN, hAl, hRl, hPl⟩ := hc
  have hpos : 0 < ctx.Nlevels := by omega
  have hmg : mgInit ctx uh = runSeq (initStep ctx) (List.range' 1 (ctx.Nlevels - 2))
      { blist := (List.replicate ctx.Nlevels (none : Option Vec)).set 0 (some ctx.bh),
        uhlist := (List.replicate ctx.Nlevels (none : Option Vec)).set 0 (some uh),
        events := [], reports := [] } := by
    simp [mgInit, hpos]
  obtain ⟨s1, hrun1, hb1, hl1, hchar1, hev1, hrep1⟩ := init_loop ctx uh hN hRl
    (ctx.Nlevels - 2) 0 (by omega)
    { blist := (List.replicate ctx.Nlevels (none : Option Vec)).set 0 (some ctx.bh),
      uhlist := (List.replicate ctx.Nlevels (none : Option Vec)).set 0 (some uh),
      events := [], reports := [] }
    (by simp)
    (by
      intro j
      show ((List.replicate ctx.Nlevels (none : Option Vec)).set 0 (some uh))[j]? = _
      rcases eq_or_ne j 0 with hj | hj
      · subst hj
        rw [List.getElem?_set_self (by simpa using hpos), if_pos (by omega)]
        rfl
      · rw [List.getElem?_set_ne (fun h => hj h.symm), List.getElem?_replicate,
          if_neg (show ¬ j ≤ 0 by omega)])
  refine ⟨s1, by rw [hmg]; exact hrun1, ?_, by simpa using hl1, ?_, ?_, ?_, hrep1⟩
  · rw [hb1]
    simp
  · intro j
    rw [hb1]
    show ((List.replicate ctx.Nlevels (none : Option Vec)).set 0 (some ctx.bh))[j]? = _
    rcases eq_or_ne j 0 with hj | hj
    · subst hj
      rw [List.getElem?_set_self (by simpa using hpos), if_pos rfl]
    · rw [List.getElem?_set_ne (fun h => hj h.symm), List.getElem?_replicate, if_neg hj]
  · intro j
    have h1 := hchar1 j
    simpa using h1
  · rw [hev1]
    simp [initEvents]

theorem mgAfter_zero (ctx : Ctx) (uh : Vec) : mgAfter ctx uh 0 = mgInit ctx uh := by
  cases h : mgInit ctx uh with
  | error e => simp [mgAfter, h]
  | ok s => simp [mgAfter, h, runSeq]

theorem mgAfter_succ (ctx : Ctx) (uh : Vec) (k : ℕ) :
    mgAfter ctx uh (k + 1) =
      match mgAfter ctx uh k with
      | Except.error e => Except.error e
      | Except.ok s => mgCycle ctx s := by
  cases h : mgInit ctx uh with
  | error e => simp [mgAfter, h]
  | ok s0 =>
    simp only [mgAfter, h]
    rw [List.range_succ]
    cases h2 : runSeq (fun _ => mgCycle ctx) (List.range k) s0 with
    | error e => rw [runSeq_append_err _ _ _ _ _ h2]
    | ok s => rw [runSeq_append_ok _ _ _ _ _ h2, runSeq_single]

theorem mgAfter_succ_ok (ctx : Ctx) (uh : Vec) (k : ℕ) (s : St)
    (h : mgAfter ctx uh k = Except.ok s) :
    mgAfter ctx uh (k + 1) = mgCycle ctx s := by
  rw [mgAfter_succ, h]

theorem run_master (ctx : Ctx) (uh : Vec) (hc : GoodCtx ctx) : ∀ k,
    mgAfter ctx uh k = Except.ok (stSeq ctx uh k) ∧
    GoodSt ctx (stSeq ctx uh k) ∧
    (stSeq ctx uh k).blist[0]? = some (some ctx.bh) ∧
    (stSeq ctx uh k).events = initEvents ctx.Nlevels ++
      (List.range k).flatMap (fun _ => cycleEvents ctx.Nlevels ctx.nu) ∧
    (stSeq ctx uh k).reports.length = k := by
  intro k
  induction k with
  | zero =>
    obtain ⟨s0, hrun, hbl, hul, hbchar, huchar, hev, hrep⟩ := mgInit_spec ctx uh hc
    have hA : mgAfter ctx uh 0 = Except.ok s0 := by rw [mgAfter_zero]; exact hrun
    have hs : stSeq ctx uh 0 = s0 := by simp [stSeq, hA]
    rw [hs]
    obtain ⟨hN, _, _, _⟩ := hc
    refine ⟨hA, ⟨hbl, hul, ?_, ?_⟩, ?_, by simp [hev], by simp [hrep]⟩
    · intro i hi
      refine ⟨uInit ctx uh i, ?_⟩
      rw [huchar i, if_pos hi]
    · refine ⟨ctx.bh, ?_⟩
      rw [hbchar 0, if_pos rfl]
    · rw [hbchar 0, if_pos rfl]
  | succ k ih =>
    obtain ⟨hA, hgood, hb0, hev, hrep⟩ := ih
    obtain ⟨s2, hcyc, hout⟩ := mgCycle_spec ctx (stSeq ctx uh k) hc hgood
    have hA1 : mgAfter ctx uh (k + 1) = Except.ok s2 := by
      rw [mgAfter_succ, hA]
      exact hcyc
    have hs : stSeq ctx uh (k + 1) = s2 := by simp [stSeq, hA1]
    rw [hs]
    obtain ⟨ho1, ho2, ho3, ho4, ho5, ho6⟩ := hout
    refine ⟨hA1, cycleOut_good ctx _ _ hgood ⟨ho1, ho2, ho3, ho4, ho5, ho6⟩, ?_, ?_, ?_⟩
    · rw [cycleOut_b0 ctx _ _ ⟨ho1, ho2, ho3, ho4, ho5, ho6⟩]
      exact hb0
    · rw [ho5, hev]
      simp [List.range_succ, List.append_assoc]
    · rw [ho6]
      simp [hrep]

theorem stSeq_cycle (ctx : Ctx) (uh : Vec) (hc : GoodCtx ctx) (k : ℕ) :
    CycleOut ctx (stSeq ctx uh k) (stSeq ctx uh (k + 1)) := by
  obtain ⟨hA, hgood, _, _, _⟩ := run_master ctx uh hc k
  obtain ⟨s2, hcyc, hout⟩ := mgCycle_spec ctx (stSeq ctx uh k) hc hgood
  have hA1 : mgAfter ctx uh (k + 1) = Except.ok s2 := by
    rw [mgAfter_succ, hA]
    exact hcyc
  have hs : stSeq ctx uh (k + 1) = s2 := by simp [stSeq, hA1]
  rw [hs]
  exact hout

theorem stSeq_u0 (ctx : Ctx) (uh : Vec) (hc : GoodCtx ctx) (k : ℕ) :
    uOf (stSeq ctx uh (k + 1)) 0 = postU ctx (stSeq ctx uh k) 0 := by
  obtain ⟨_, _, h3, _, _, _⟩ := stSeq_cycle ctx uh hc k
  have h0 := h3 0
  rw [if_pos (by omega)] at h0
  exact ofetch_eq _ _ _ h0

theorem reports_char (ctx : Ctx) (uh : Vec) (hc : GoodCtx ctx) : ∀ k,
    (stSeq ctx uh k).reports = (List.range k).map
      (fun j => residual ctx.prims (Alvl ctx 0) ctx.bh (uOf (stSeq ctx uh (j + 1)) 0)) := by
  intro k
  induction k with
  | zero =>
    obtain ⟨_, _, _, _, hlen⟩ := run_master ctx uh hc 0
    simpa using List.eq_nil_of_length_eq_zero hlen
  | succ k ih =>
    obtain ⟨_, _, _, _, _, ho6⟩ := stSeq_cycle ctx uh hc k
    rw [ho6, ih, List.range_succ]
    simp [stSeq_u0 ctx uh hc k]

theorem mg_master (ctx : Ctx) (uh : Vec) (hc : GoodCtx ctx) :
    mg ctx uh = Except.ok
      (some (uOf (stSeq ctx uh ctx.Ncycles) 0), stSeq ctx uh ctx.Ncycles) := by
  obtain ⟨hA, hgood, _, _, _⟩ := run_master ctx uh hc ctx.Ncycles
  obtain ⟨_, _, hue, _⟩ := hgood
  obtain ⟨v, hv⟩ := hue 0 (by omega)
  simp only [mg, hA, hv]
  have h5 : uOf (stSeq ctx uh ctx.Ncycles) 0 = v := ofetch_eq _ _ _ hv
  rw [h5]

/-! Congruence of the cycle description in the state (the cycle reads only
`uhlist[0 .. N-2]` and `blist[0]`) and in the norm primitive (which nothing
except the report depends on). -/

theorem specB_congr (c₁ c₂ : Ctx) (s₁ s₂ : St)
    (hN : c₁.Nlevels = c₂.Nlevels) (hA : c₁.Ahlist = c₂.Ahlist)
    (hR : c₁.restriction = c₂.restriction) (hn : c₁.nu = c₂.nu)
    (hsm : c₁.prims.smooth = c₂.prims.smooth)
    (hu : ∀ j, j ≤ c₁.Nlevels - 2 → uOf s₁ j = uOf s₂ j)
    (hb : bOf s₁ 0 = bOf s₂ 0) :
    ∀ n, n ≤ c₁.Nlevels - 1 → specB c₁ s₁ n = specB c₂ s₂ n := by
  intro n
  induction n with
  | zero => intro _; simpa [specB] using hb
  | succ n ih =>
    intro hn1
    simp only [specB]
    rw [ih (by omega), hu n (by omega), Alvl, Alvl, hA, Rop, Rop, hR, hn, hsm]

theorem preU_congr (c₁ c₂ : Ctx) (s₁ s₂ : St)
    (hN : c₁.Nlevels = c₂.Nlevels) (hA : c₁.Ahlist = c₂.Ahlist)
    (hR : c₁.restriction = c₂.restriction) (hn : c₁.nu = c₂.nu)
    (hsm : c₁.prims.smooth = c₂.prims.smooth)
    (hu : ∀ j, j ≤ c₁.Nlevels - 2 → uOf s₁ j = uOf s₂ j)
    (hb : bOf s₁ 0 = bOf s₂ 0) :
    ∀ j, j ≤ c₁.Nlevels - 2 → preU c₁ s₁ j = preU c₂ s₂ j := by
  intro j hj
  simp only [preU]
  rw [specB_congr c₁ c₂ s₁ s₂ hN hA hR hn hsm hu hb j (by omega), hu j hj,
    Alvl, Alvl, hA, hn, hsm]

theorem postAux_congr (c₁ c₂ : Ctx) (s₁ s₂ : St)
    (hN : c₁.Nlevels = c₂.Nlevels) (hA : c₁.Ahlist = c₂.Ahlist)
    (hR : c₁.restriction = c₂.restriction) (hP : c₁.prolongation = c₂.prolongation)
    (hn : c₁.nu = c₂.nu) (hsm : c₁.prims.smooth = c₂.prims.smooth)
    (hd : c₁.prims.direct = c₂.prims.direct)
    (hu : ∀ j, j ≤ c₁.Nlevels - 2 → uOf s₁ j = uOf s₂ j)
    (hb : bOf s₁ 0 = bOf s₂ 0) :
    ∀ k, postAux c₁ s₁ k = postAux c₂ s₂ k := by
  intro k
  induction k with
  | zero =>
    simp only [postAux, coarseU]
    rw [specB_congr c₁ c₂ s₁ s₂ hN hA hR hn hsm hu hb (c₁.Nlevels - 1) (le_refl _),
      Alvl, Alvl, hA, hd, hN]
  | succ k ih =>
    simp only [postAux]
    rw [ih, preU_congr c₁ c₂ s₁ s₂ hN hA hR hn hsm hu hb _ (by omega),
      specB_congr c₁ c₂ s₁ s₂ hN hA hR hn hsm hu hb _ (by omega),
      Pop, Pop, hP, Alvl, Alvl, hA, hn, hsm, hN]

theorem postU_congr (c₁ c₂ : Ctx) (s₁ s₂ : St)
    (hN : c₁.Nlevels = c₂.Nlevels) (hA : c₁.Ahlist = c₂.Ahlist)
    (hR : c₁.restriction = c₂.restriction) (hP : c₁.prolongation = c₂.prolongation)
    (hn : c₁.nu = c₂.nu) (hsm : c₁.prims.smooth = c₂.prims.smooth)
    (hd : c₁.prims.direct = c₂.prims.direct)
    (hu : ∀ j, j ≤ c₁.Nlevels - 2 → uOf s₁ j = uOf s₂ j)
    (hb : bOf s₁ 0 = bOf s₂ 0) :
    ∀ j, postU c₁ s₁ j = postU c₂ s₂ j := by
  intro j
  simp only [postU]
  rw [postAux_congr c₁ c₂ s₁ s₂ hN hA hR hP hn hsm hd hu hb, hN]

/-! Zero propagation through the linear algebra and the cycle, for the
zero-right-hand-side property. -/

/-- A vector whose every entry is zero. -/
def isZero (v : Vec) : Prop := ∀ i, v.ent i = 0

theorem matVec_isZero (A : Mat) (v : Vec) (h : isZero v) : isZero (matVec A v) := by
  intro i
  simp only [matVec]
  exact Finset.sum_eq_zero fun k _ => by rw [h k, mul_zero]

theorem vsub_isZero (x y : Vec) (hx : isZero x) (hy : isZero y) : isZero (vsub x y) := by
  intro i
  simp [vsub, hx i, hy i]

theorem vadd_isZero (x y : Vec) (hx : isZero x) (hy : isZero y) : isZero (vadd x y) := by
  intro i
  simp [vadd, hx i, hy i]

/-- Entrywise-zero invariant on a buffer list: every populated slot holds a
zero vector. -/
def ZL (l : List (Option Vec)) : Prop :=
  ∀ (i : ℕ) (v : Vec), l[i]? = some (some v) → isZero v

theorem ofetch_isZero (l : List (Option Vec)) (h : ZL l) (i : ℕ) :
    isZero (ofetch l i) := by
  cases hx : l[i]? with
  | none => simp [ofetch, hx]; intro _; rfl
  | some a =>
    cases a with
    | none => simp [ofetch, hx]; intro _; rfl
    | some v => rw [ofetch_eq _ _ _ hx]; exact h i v hx

/-- The zero-preservation hypotheses on the external primitives: any
consistent relaxation, exact solver and norm maps zero data to zero. -/
def ZeroPrims (ctx : Ctx) : Prop :=
  (∀ A b x, isZero b → isZero x → isZero (ctx.prims.smooth A b ctx.nu x)) ∧
  (∀ A b, isZero b → isZero (ctx.prims.direct A b)) ∧
  (∀ v, isZero v → ctx.prims.vnorm v = 0)

theorem specB_zero (ctx : Ctx) (st : St) (hz : ZeroPrims ctx)
    (hu : ZL st.uhlist) (hb : ZL st.blist) : ∀ n, isZero (specB ctx st n) := by
  intro n
  induction n with
  | zero => exact ofetch_isZero _ hb 0
  | succ n ih =>
    simp only [specB]
    exact matVec_isZero _ _ (vsub_isZero _ _ ih
      (matVec_isZero _ _ (hz.1 _ _ _ ih (ofetch_isZero _ hu n))))

theorem postAux_zero (ctx : Ctx) (st : St) (hz : ZeroPrims ctx)
    (hu : ZL st.uhlist) (hb : ZL st.blist) : ∀ k, isZero (postAux ctx st k) := by
  intro k
  induction k with
  | zero =>
    exact hz.2.1 _ _ (specB_zero ctx st hz hu hb _)
  | succ k ih =>
    simp only [postAux]
    refine hz.1 _ _ _ (specB_zero ctx st hz hu hb _) ?_
    refine vadd_isZero _ _ ?_ (matVec_isZero _ _ ih)
    exact hz.1 _ _ _ (specB_zero ctx st hz hu hb _) (ofetch_isZero _ hu _)

theorem cycle_zero (ctx : Ctx) (st s2 : St) (hz : ZeroPrims ctx)
    (hu : ZL st.uhlist) (hb : ZL st.blist) (h : CycleOut ctx st s2) :
    ZL s2.uhlist ∧ ZL s2.blist := by
  obtain ⟨_, _, h3, h4, _, _⟩ := h
  constructor
  · intro i v hv
    rw [h3 i] at hv
    by_cases hi : i ≤ ctx.Nlevels - 1
    · rw [if_pos hi] at hv
      cases hv
      exact postAux_zero ctx st hz hu hb _
    · rw [if_neg hi] at hv
      exact hu i v hv
  · intro i v hv
    rw [h4 i] at hv
    by_cases hi : 1 ≤ i ∧ i ≤ ctx.Nlevels - 1
    · rw [if_pos hi] at hv
      cases hv
      exact specB_zero ctx st hz hu hb _
    · rw [if_neg hi] at hv
      exact hb i v hv

theorem uInit_zero (ctx : Ctx) (uh : Vec) (h : isZero uh) : ∀ i, isZero (uInit ctx uh i) := by
  intro i
  induction i with
  | zero => exact h
  | succ i ih => exact matVec_isZero _ _ ih

/-! Frame facts: each engine operation writes only the buffer slot its Python
statement assigns, and never touches the report list except the report step. -/

theorem descent_frame (ctx : Ctx) (i : ℕ) (st s1 : St)
    (h : descent ctx i st = Except.ok s1) :
    (∀ j, j ≠ i → s1.uhlist[j]? = st.uhlist[j]?) ∧
    (∀ j, j ≠ i + 1 → s1.blist[j]? = st.blist[j]?) ∧
    s1.reports = st.reports := by
  simp only [descent] at h
  repeat' split at h
  all_goals try exact Except.noConfusion h
  injection h with h1
  subst h1
  refine ⟨?_, ?_, rfl⟩
  · intro j hj
    exact List.getElem?_set_ne (fun hx => hj hx.symm)
  · intro j hj
    exact List.getElem?_set_ne (fun hx => hj hx.symm)

theorem coarse_frame (ctx : Ctx) (st s1 : St) (h : coarse ctx st = Except.ok s1) :
    (∀ j, j ≠ ctx.Nlevels - 1 → s1.uhlist[j]? = st.uhlist[j]?) ∧
    s1.blist = st.blist ∧ s1.reports = st.reports := by
  simp only [coarse] at h
  repeat' split at h
  all_goals try exact Except.noConfusion h
  injection h with h1
  subst h1
  refine ⟨?_, rfl, rfl⟩
  intro j hj
  exact List.getElem?_set_ne (fun hx => hj hx.symm)

theorem ascent_frame (ctx : Ctx) (j0 : ℕ) (st s1 : St)
    (h : ascent ctx j0 st = Except.ok s1) :
    (∀ j, j ≠ j0 → s1.uhlist[j]? = st.uhlist[j]?) ∧
    s1.blist = st.blist ∧ s1.reports = st.reports := by
  simp only [ascent] at h
  repeat' split at h
  all_goals try exact Except.noConfusion h
  injection h with h1
  subst h1
  refine ⟨?_, rfl, rfl⟩
  intro j hj
  show ((st.uhlist.set j0 _).set j0 _)[j]? = _
  rw [List.getElem?_set_ne (fun hx => hj hx.symm),
    List.getElem?_set_ne (fun hx => hj hx.symm)]

theorem report_frame (ctx : Ctx) (st s1 : St) (h : reportStep ctx st = Except.ok s1) :
    s1.uhlist = st.uhlist ∧ s1.blist = st.blist := by
  simp only [reportStep] at h
  repeat' split at h
  all_goals try exact Except.noConfusion h
  injection h with h1
  subst h1
  exact ⟨rfl, rfl⟩

theorem initStep_frame (ctx : Ctx) (i : ℕ) (st s1 : St)
    (h : initStep ctx i st = Except.ok s1) :
    (∀ j, j ≠ i → s1.uhlist[j]? = st.uhlist[j]?) ∧
    s1.blist = st.blist ∧ s1.reports = st.reports := by
  simp only [initStep] at h
  repeat' split at h
  all_goals try exact Except.noConfusion h
  injection h with h1
  subst h1
  refine ⟨?_, rfl, rfl⟩
  intro j hj
  exact List.getElem?_set_ne (fun hx => hj hx.symm)

/-! Characterization of the module-level hierarchy construction. -/

theorem buildLoop_spec (A : Mat) (puse : List Mat) (nl : ℕ)
    (hp : puse.length = nl - 1) :
    ∀ k m, m + k ≤ nl - 2 →
    ∀ R L : List (Option Mat), R.length = nl - 1 → L.length = nl →
    (∀ i, i ≤ m → i < nl - 1 → R[i]? = some (some (transposeM (mfetch puse i)))) →
    (∀ i, i ≤ m → L[i]? = some (some (galerkinA A puse i))) →
    ∃ R1 L1, buildLoop puse (List.range' (m + 1) k) (R, L) = some (R1, L1) ∧
      R1.length = nl - 1 ∧ L1.length = nl ∧
      (∀ i, i ≤ m + k → i < nl - 1 → R1[i]? = some (some (transposeM (mfetch puse i)))) ∧
      (∀ i, i ≤ m + k → L1[i]? = some (some (galerkinA A puse i))) := by
  intro k
  induction k with
  | zero =>
    intro m _ R L hR hL hRc hLc
    exact ⟨R, L, by simp [buildLoop], hR, hL, fun i h1 h2 => hRc i h1 h2, fun i h1 => hLc i h1⟩
  | succ k ih =>
    intro m hmk R L hR hL hRc hLc
    have e1 : puse[m + 1]? = some (mfetch puse (m + 1)) :=
      getElem_eq_mfetch _ _ (by omega)
    have e2 : L[m + 1 - 1]? = some (some (galerkinA A puse m)) := by
      simpa using hLc m (le_refl m)
    have e3 : puse[m + 1 - 1]? = some (mfetch puse m) := by
      simpa using getElem_eq_mfetch puse m (by omega)
    have hstep : buildLoop puse (List.range' (m + 1) (k + 1)) (R, L) =
        buildLoop puse (List.range' (m + 1 + 1) k)
          (R.set (m + 1) (some (transposeM (mfetch puse (m + 1)))),
           L.set (m + 1) (some (ptap (galerkinA A puse m) (mfetch puse m)))) := by
      rw [List.range'_succ (m + 1) k 1]
      simp only [buildLoop, e1, e2, e3]
      rw [if_pos (by omega), if_pos (by omega)]
    obtain ⟨R1, L1, hrun, hR1, hL1, hRc1, hLc1⟩ := ih (m + 1) (by omega)
      (R.set (m + 1) (some (transposeM (mfetch puse (m + 1)))))
      (L.set (m + 1) (some (ptap (galerkinA A puse m) (mfetch puse m))))
      (by simpa using hR) (by simpa using hL)
      (by
        intro i h1 h2
        rcases eq_or_ne i (m + 1) with hi | hi
        · subst hi
          rw [List.getElem?_set_self (by omega)]
        · rw [List.getElem?_set_ne (fun hx => hi hx.symm)]
          exact hRc i (by omega) h2)
      (by
        intro i h1
        rcases eq_or_ne i (m + 1) with hi | hi
        · subst hi
          rw [List.getElem?_set_self (by omega)]
          rfl
        · rw [List.getElem?_set_ne (fun hx => hi hx.symm)]
          exact hLc i (by omega))
    refine ⟨R1, L1, by rw [hstep]; exact hrun, hR1, hL1, ?_, ?_⟩
    · intro i h1 h2
      exact hRc1 i (by omega) h2
    · intro i h1
      exact hLc1 i (by omega)

theorem build_spec (A : Mat) (puse : List Mat) (nl : ℕ) (h2 : 2 ≤ nl)
    (hp : puse.length = nl - 1) :
    ∃ R L, build A puse nl = some (R, L) ∧
      R.length = nl - 1 ∧ L.length = nl ∧
      L[0]? = some (some A) ∧
      (∀ i, i < nl - 1 → R[i]? = some (some (transposeM (mfetch puse i)))) ∧
      (∀ i, i ≤ nl - 1 → L[i]? = some (some (galerkinA A puse i))) := by
  have e0 : puse[0]? = some (mfetch puse 0) := getElem_eq_mfetch _ _ (by omega)
  obtain ⟨R2, L2, hrun, hR2, hL2, hRc2, hLc2⟩ := buildLoop_spec A puse nl hp
    (nl - 2) 0 (by omega)
    ((List.replicate (nl - 1) (none : Option Mat)).set 0 (some (transposeM (mfetch puse 0))))
    ((List.replicate nl (none : Option Mat)).set 0 (some A))
    (by simp) (by simp)
    (by
      intro i h1 h2
      have hi : i = 0 := by omega
      subst hi
      rw [List.getElem?_set_self (by simpa using (by omega : 0 < nl - 1))]
    )
    (by
      intro i h1
      have hi : i = 0 := by omega
      subst hi
      rw [List.getElem?_set_self (by simpa using (by omega : 0 < nl))]
      rfl)
  have eL2 : L2[nl - 2]? = some (some (galerkinA A puse (nl - 2))) :=
    hLc2 (nl - 2) (by omega)
  have ePcc : puse[nl - 2]? = some (mfetch puse (nl - 2)) :=
    getElem_eq_mfetch _ _ (by omega)
  have hbuild : build A puse nl = some (R2,
      L2.set (nl - 1) (some (ptap (galerkinA A puse (nl - 2)) (mfetch puse (nl - 2))))) := by
    simp only [build, e0]
    rw [if_pos (by simpa using (by omega : 0 < nl - 1)),
      if_pos (by simpa using (by omega : 0 < nl))]
    simp only [hrun, eL2, ePcc]
    rw [if_pos (by omega)]
  have hgal : galerkinA A puse (nl - 1) =
      ptap (galerkinA A puse (nl - 2)) (mfetch puse (nl - 2)) := by
    have hx : nl - 1 = (nl - 2) + 1 := by omega
    rw [hx]
    rfl
  refine ⟨R2, _, hbuild, hR2, by simpa using hL2, ?_, ?_, ?_⟩
  · rw [List.getElem?_set_ne (by omega), hLc2 0 (by omega)]
    rfl
  · intro i hi
    exact hRc2 i (by omega) hi
  · intro i hi
    rcases eq_or_ne i (nl - 1) with hieq | hieq
    · subst hieq
      rw [List.getElem?_set_self (by omega), hgal]
    · rw [List.getElem?_set_ne (fun hx => hieq hx.symm)]
      exact hLc2 i (by omega)

/-- Outcome classifier for a whole run: the raised Python exception together
with the operation trace executed before it, or `none` for a successful run. -/
def errInfo (r : Except Err (Option Vec × St)) : Option (PyErr × List Event) :=
  match r with
  | Except.error e => some (e.1, e.2.events)
  | Except.ok _ => none

theorem mg_mismatch (ctx : Ctx) (uh : Vec) (h2 : ctx.Nlevels = 2)
    (hr : ctx.restriction = []) (hA : 1 ≤ ctx.Ahlist.length) (hcy : 1 ≤ ctx.Ncycles) :
    ∃ st, mg ctx uh = Except.error (PyErr.indexError, st) ∧
      st.events = [Event.smoothE 0 ctx.nu] := by
  have hinit : mgInit ctx uh = Except.ok
      { blist := [some ctx.bh, none], uhlist := [some uh, none],
        events := [], reports := [] } := by
    simp [mgInit, h2, runSeq, List.replicate_succ]
  have hA0 : ctx.Ahlist[0]? = some (mfetch ctx.Ahlist 0) :=
    getElem_eq_mfetch _ _ (by omega)
  have hdesc : descent ctx 0
      { blist := [some ctx.bh, none], uhlist := [some uh, none],
        events := [], reports := [] } = Except.error (PyErr.indexError,
      { blist := [some ctx.bh, none],
        uhlist := [some (ctx.prims.smooth (mfetch ctx.Ahlist 0) ctx.bh ctx.nu uh), none],
        events := [Event.smoothE 0 ctx.nu], reports := [] }) := by
    simp [descent, hA0, hr]
  have hcyc : mgCycle ctx
      { blist := [some ctx.bh, none], uhlist := [some uh, none],
        events := [], reports := [] } = Except.error (PyErr.indexError,
      { blist := [some ctx.bh, none],
        uhlist := [some (ctx.prims.smooth (mfetch ctx.Ahlist 0) ctx.bh ctx.nu uh), none],
        events := [Event.smoothE 0 ctx.nu], reports := [] }) := by
    have hrg : List.range (ctx.Nlevels - 1) = [0] := by rw [h2]; rfl
    simp only [mgCycle, hrg, runSeq_single, hdesc]
  obtain ⟨n, hn⟩ : ∃ n, ctx.Ncycles = n + 1 := ⟨ctx.Ncycles - 1, by omega⟩
  have hafter : mgAfter ctx uh ctx.Ncycles = Except.error (PyErr.indexError,
      { blist := [some ctx.bh, none],
        uhlist := [some (ctx.prims.smooth (mfetch ctx.Ahlist 0) ctx.bh ctx.nu uh), none],
        events := [Event.smoothE 0 ctx.nu], reports := [] }) := by
    simp only [mgAfter, hinit, hn, List.range_succ_eq_map]
    simp only [runSeq, hcyc]
  have hmg2 : mg ctx uh = Except.error (PyErr.indexError,
      { blist := [some ctx.bh, none],
        uhlist := [some (ctx.prims.smooth (mfetch ctx.Ahlist 0) ctx.bh ctx.nu uh), none],
        events := [Event.smoothE 0 ctx.nu], reports := [] }) := by
    simp only [mg, hafter]
  exact ⟨_, hmg2, rfl⟩

theorem mgCycle_one (ctx : Ctx) (h1 : ctx.Nlevels = 1) (hA : 1 ≤ ctx.Ahlist.length)
    (st : St) (b0 : Vec) (hb : st.blist[0]? = some (some b0)) (hu : 0 < st.uhlist.length) :
    mgCycle ctx st = Except.ok
      { blist := st.blist,
        uhlist := st.uhlist.set 0 (some (ctx.prims.direct (mfetch ctx.Ahlist 0) b0)),
        events := st.events ++ [Event.directE, Event.reportE],
        reports := st.reports ++ [residual ctx.prims (mfetch ctx.Ahlist 0) ctx.bh
          (ctx.prims.direct (mfetch ctx.Ahlist 0) b0)] } := by
  have h0 : ctx.Nlevels - 1 = 0 := by omega
  have hA0 : ctx.Ahlist[ctx.Nlevels - 1]? = some (mfetch ctx.Ahlist 0) := by
    rw [h0]
    exact getElem_eq_mfetch _ _ (by omega)
  have hbc : st.blist[ctx.Nlevels - 1]? = some (some b0) := by rw [h0]; exact hb
  have hco := coarse_eq ctx st (mfetch ctx.Ahlist 0) b0 hA0 hbc (by omega)
  rw [h0] at hco
  have hA0p : ctx.Ahlist[0]? = some (mfetch ctx.Ahlist 0) :=
    getElem_eq_mfetch _ _ (by omega)
  have hu0 : (st.uhlist.set 0 (some (ctx.prims.direct (mfetch ctx.Ahlist 0) b0)))[0]? =
      some (some (ctx.prims.direct (mfetch ctx.Ahlist 0) b0)) :=
    List.getElem?_set_self (by omega)
  have hrep := report_eq ctx
    { blist := st.blist,
      uhlist := st.uhlist.set 0 (some (ctx.prims.direct (mfetch ctx.Ahlist 0) b0)),
      events := st.events ++ [Event.directE], reports := st.reports }
    (mfetch ctx.Ahlist 0) (ctx.prims.direct (mfetch ctx.Ahlist 0) b0) hA0p hu0
  have hrg : List.range (ctx.Nlevels - 1) = [] := by rw [h0]; rfl
  simp only [mgCycle, hrg, List.reverse_nil, runSeq, hco, hrep]
  simp [List.append_assoc]

theorem mg_one_after (ctx : Ctx) (uh : Vec) (h1 : ctx.Nlevels = 1)
    (hA : 1 ≤ ctx.Ahlist.length) : ∀ k,
    mgAfter ctx uh (k + 1) = Except.ok
      { blist := [some ctx.bh],
        uhlist := [some (ctx.prims.direct (mfetch ctx.Ahlist 0) ctx.bh)],
        events := (List.range (k + 1)).flatMap (fun _ => [Event.directE, Event.reportE]),
        reports := List.replicate (k + 1) (residual ctx.prims (mfetch ctx.Ahlist 0) ctx.bh
          (ctx.prims.direct (mfetch ctx.Ahlist 0) ctx.bh)) } := by
  have hinit : mgInit ctx uh = Except.ok
      { blist := [some ctx.bh], uhlist := [some uh], events := [], reports := [] } := by
    simp [mgInit, h1, runSeq, List.replicate_succ]
  intro k
  induction k with
  | zero =>
    rw [mgAfter_succ_ok ctx uh 0 _ (by rw [mgAfter_zero]; exact hinit)]
    rw [mgCycle_one ctx h1 hA _ ctx.bh (by simp) (by simp)]
    simp [List.range_succ]
  | succ k ih =>
    rw [mgAfter_succ_ok ctx uh (k + 1) _ ih]
    rw [mgCycle_one ctx h1 hA _ ctx.bh (by simp) (by simp)]
    simp [List.range_succ, List.replicate_succ']

/-! Concrete instances used to witness the claim theorems: a two-level
hierarchy of one-by-one matrices, and a primitive instantiation whose
smoother returns its initial guess, whose direct solver returns the RHS and
whose norm is the sum of squared entries. -/

/-- A primitive instantiation for witnesses. -/
def exPrims : Prims :=
  { smooth := fun _A _b _n x => x,
    direct := fun _A b => b,
    vnorm := fun v => (Finset.range v.dim).sum (fun i => v.ent i * v.ent i) }

/-- One-by-one fine matrix with entry 2. -/
def exMatF : Mat := ⟨1, 1, fun _ _ => 2⟩

/-- One-by-one coarse matrix with entry 1. -/
def exMatC : Mat := ⟨1, 1, fun _ _ => 1⟩

/-- One-by-one transfer operator with entry 1. -/
def exP : Mat := ⟨1, 1, fun _ _ => 1⟩

/-- One-entry RHS vector with entry 1. -/
def exVb : Vec := ⟨1, fun _ => 1⟩

/-- One-entry zero vector. -/
def exVz : Vec := ⟨1, fun _ => 0⟩

/-- A structurally valid two-level configuration. -/
def exCtx : Ctx :=
  { Ahlist := [exMatF, exMatC], bh := exVb, prolongation := [exP], restriction := [exP],
    Ncycles := 1, Nlevels := 2, nu := 2, prims := exPrims }

/-- A well-formed two-level state. -/
def exSt : St :=
  { blist := [some exVb, none], uhlist := [some exVz, none], events := [], reports := [] }

theorem exCtx_good : GoodCtx exCtx := ⟨by norm_num [exCtx], rfl, rfl, rfl⟩

theorem exSt_good : GoodSt exCtx exSt := by
  refine ⟨rfl, rfl, ?_, ⟨exVb, rfl⟩⟩
  intro i hi
  have hi0 : i = 0 := by
    have : exCtx.Nlevels - 2 = 0 := rfl
    omega
  subst hi0
  exact ⟨exVz, rfl⟩

/-- Conclusion of claim C1, stated against a cycle-entry state `st`: the cycle
succeeds, its trace is exactly pre-smooth/restrict ascendingly then the direct
solve then correct/post-smooth descendingly then one report (same sweep count
`nu` in both smoothing phases), each coarse RHS is the restricted
post-pre-smoothing residual, the coarsest solution is the exact direct solve
of this cycle's coarse system, and each finer final solution is the
post-smoothing of the pre-smoothed solution plus the prolonged coarser
solution (the correction is added, not overwritten). -/
def C1Concl (ctx : Ctx) (st : St) : Prop :=
  ∃ s2, mgCycle ctx st = Except.ok s2 ∧
    s2.events = st.events ++
      ((List.range (ctx.Nlevels - 1)).flatMap
        (fun i => [Event.smoothE i ctx.nu, Event.restrictE i]) ++ [Event.directE] ++
       ((List.range (ctx.Nlevels - 1)).reverse.flatMap
        (fun j => [Event.correctE j, Event.smoothE j ctx.nu])) ++ [Event.reportE]) ∧
    (∀ i, i < ctx.Nlevels - 1 →
      s2.blist[i + 1]? = some (some (matVec (Rop ctx i) (vsub (specB ctx st i)
        (matVec (Alvl ctx i) (preU ctx st i)))))) ∧
    s2.uhlist[ctx.Nlevels - 1]? = some (some
      (ctx.prims.direct (Alvl ctx (ctx.Nlevels - 1)) (specB ctx st (ctx.Nlevels - 1)))) ∧
    (∀ j, j < ctx.Nlevels - 1 →
      s2.uhlist[j]? = some (some (ctx.prims.smooth (Alvl ctx j) (specB ctx st j) ctx.nu
        (vadd (preU ctx st j) (matVec (Pop ctx j) (postU ctx st (j + 1)))))))

/-- C1: for every run with at least two levels, each V-cycle executes exactly
the sequence pre-smooth and restrict on levels `0 .. N_levels-2` in increasing
order, exact direct solve on the coarsest level, then coarse-grid correction
added onto the pre-smoothed solution followed by post-smoothing with the same
sweep count `nu`, on levels `N_levels-2 .. 0` in decreasing order. -/
theorem c1_vcycle_sequence (ctx : Ctx) (st : St) (hc : GoodCtx ctx)
    (hst : GoodSt ctx st) : C1Concl ctx st := by
  obtain ⟨s2, hcyc, h1, h2, h3, h4, h5, h6⟩ := mgCycle_spec ctx st hc hst
  obtain ⟨hN, _, _, _⟩ := hc
  refine ⟨s2, hcyc, ?_, ?_, ?_, ?_⟩
  · rw [h5]
    simp [cycleEvents, List.append_assoc]
  · intro i hi
    have hx := h4 (i + 1)
    rw [if_pos (by omega)] at hx
    rw [hx]
    simp only [specB, preU]
  · have hx := h3 (ctx.Nlevels - 1)
    rw [if_pos (le_refl _)] at hx
    rw [hx, postU_top]
    rfl
  · intro j hj
    have hx := h3 j
    rw [if_pos (by omega)] at hx
    rw [hx, postU_step ctx st j (by omega)]

/-- Witness for C1 at the concrete two-level instance. -/
theorem c1_vcycle_sequence_witness : C1Concl exCtx exSt :=
  c1_vcycle_sequence exCtx exSt exCtx_good exSt_good

/-- C2: for every constructed hierarchy (at least two levels, one prolongation
per non-coarsest level), the construction succeeds, the finest matrix slot
holds the externally supplied `A` (never derived), and for every level
`i < nl - 1` the stored restriction is the transpose of the stored
prolongation and the stored coarse matrix satisfies the Galerkin invariant
`A_{i+1} = R_i * (A_i * P_i)`. -/
theorem c2_galerkin_invariant (A : Mat) (puse : List Mat) (nl : ℕ) (h2 : 2 ≤ nl)
    (hp : puse.length = nl - 1) :
    ∃ R L, build A puse nl = some (R, L) ∧
      L[0]? = some (some A) ∧
      (∀ i, i < nl - 1 → ∀ Ri Ai Pi,
        R[i]? = some (some Ri) → L[i]? = some (some Ai) → puse[i]? = some Pi →
        Ri = transposeM Pi ∧ L[i + 1]? = some (some (matMul Ri (matMul Ai Pi)))) := by
  obtain ⟨R, L, hrun, hR, hL, h0, hRc, hLc⟩ := build_spec A puse nl h2 hp
  refine ⟨R, L, hrun, h0, ?_⟩
  intro i hi Ri Ai Pi hRi hAi hPi
  have hPfetch : mfetch puse i = Pi := by simp [mfetch, hPi]
  have hRival : Ri = transposeM (mfetch puse i) := by
    have hx := hRc i hi
    rw [hRi] at hx
    exact Option.some_injective _ (Option.some_injective _ hx)
  have hAival : Ai = galerkinA A puse i := by
    have hx := hLc i (by omega)
    rw [hAi] at hx
    exact Option.some_injective _ (Option.some_injective _ hx)
  constructor
  · rw [hRival, hPfetch]
  · have hx := hLc (i + 1) (by omega)
    rw [hx, ← hPfetch, hRival, hAival]
    rfl

/-- Witness for C2 at a concrete two-level hierarchy. -/
theorem c2_galerkin_invariant_witness :
    ∃ R L, build exMatF [exP] 2 = some (R, L) ∧
      L[0]? = some (some exMatF) ∧
      (∀ i, i < 2 - 1 → ∀ Ri Ai Pi,
        R[i]? = some (some Ri) → L[i]? = some (some Ai) → [exP][i]? = some Pi →
        Ri = transposeM Pi ∧ L[i + 1]? = some (some (matMul Ri (matMul Ai Pi)))) :=
  c2_galerkin_invariant exMatF [exP] 2 (by norm_num) rfl

/-- Conclusion of claim C3: initialization succeeds; `uhlist[0]` is the
caller's guess; each coarser guess `uhlist[i]` for `1 <= i <= N_levels-2` is
the restriction of the previous one, computed once before cycling (the trace
shows exactly one `initE` block, and the per-cycle trace contains no `initE`);
the coarsest slot is still `None` after initialization and is still `None`
after the whole descent phase of the first cycle, i.e. until the first direct
solve; and the full-run trace is the initialization block followed by the
cycle blocks only. -/
def C3Concl (ctx : Ctx) (uh : Vec) : Prop :=
  ∃ s0, mgInit ctx uh = Except.ok s0 ∧
    s0.uhlist[0]? = some (some uh) ∧
    (∀ i, 1 ≤ i → i ≤ ctx.Nlevels - 2 →
      s0.uhlist[i]? = some (some (matVec (Rop ctx (i - 1)) (uInit ctx uh (i - 1))))) ∧
    s0.uhlist[ctx.Nlevels - 1]? = some none ∧
    s0.events = initEvents ctx.Nlevels ∧
    (∀ i, Event.initE i ∉ cycleEvents ctx.Nlevels ctx.nu) ∧
    (∃ sD, runSeq (descent ctx) (List.range (ctx.Nlevels - 1)) s0 = Except.ok sD ∧
      sD.uhlist[ctx.Nlevels - 1]? = some none) ∧
    (∀ (stF : St) (ov : Option Vec), mg ctx uh = Except.ok (ov, stF) →
      stF.events = initEvents ctx.Nlevels ++
        (List.range ctx.Ncycles).flatMap (fun _ => cycleEvents ctx.Nlevels ctx.nu))

/-- C3: before any cycle runs, and exactly once per run, the initial guess is
propagated to coarser levels by restriction (`u[i] = R_{i-1} * u[i-1]` for
`i` in `[1, N_levels-1)`); the propagation is never repeated inside the cycle
loop and is not recomputed from residuals; and `u[N_levels-1]` is never
initialized before the first coarse direct solve. -/
theorem c3_initial_guess_restriction (ctx : Ctx) (uh : Vec) (hc : GoodCtx ctx) :
    C3Concl ctx uh := by
  obtain ⟨s0, hrun, hbl, hul, hbchar, huchar, hev, hrep⟩ := mgInit_spec ctx uh hc
  obtain ⟨hN, hAl, hRl, hPl⟩ := hc
  have hgood : GoodSt ctx s0 := by
    refine ⟨hbl, hul, ?_, ⟨ctx.bh, ?_⟩⟩
    · intro i hi
      refine ⟨uInit ctx uh i, ?_⟩
      rw [huchar i, if_pos hi]
    · rw [hbchar 0, if_pos rfl]
  refine ⟨s0, hrun, ?_, ?_, ?_, hev, ?_, ?_, ?_⟩
  · rw [huchar 0, if_pos (by omega)]
    rfl
  · intro i h1 h2
    rw [huchar i, if_pos h2]
    have hi : i = (i - 1) + 1 := by omega
    rw [hi]
    rfl
  · rw [huchar (ctx.Nlevels - 1), if_neg (by omega), if_pos (by omega)]
  · intro i
    simp [cycleEvents]
  · obtain ⟨sD, hrunD, _, _, huD, _, _, _⟩ :=
      desc_phase ctx s0 ⟨hN, hAl, hRl, hPl⟩ hgood (ctx.Nlevels - 1) (le_refl _)
    refine ⟨sD, hrunD, ?_⟩
    rw [huD (ctx.Nlevels - 1), if_neg (by omega), huchar (ctx.Nlevels - 1),
      if_neg (by omega), if_pos (by omega)]
  · intro stF ov hmg
    rw [mg_master ctx uh ⟨hN, hAl, hRl, hPl⟩] at hmg
    injection hmg with h
    have hstF : stF = stSeq ctx uh ctx.Ncycles := (congrArg Prod.snd h).symm
    rw [hstF]
    exact (run_master ctx uh ⟨hN, hAl, hRl, hPl⟩ ctx.Ncycles).2.2.2.1

/-- Witness for C3 at the concrete two-level instance. -/
theorem c3_initial_guess_restriction_witness : C3Concl exCtx exVz :=
  c3_initial_guess_restriction exCtx exVz exCtx_good

/-- A two-level configuration with an empty transfer-operator list, i.e. a
mismatched `len(restriction) != N_levels - 1`. -/
def exCtxBad : Ctx :=
  { Ahlist := [exMatF, exMatC], bh := exVb, prolongation := [], restriction := [],
    Ncycles := 1, Nlevels := 2, nu := 2, prims := exPrims }

/-- Counterexample to C4: running `mg` with a mismatched transfer-operator
list does not fail with any eager configuration check - the run pre-smooths
level 0 first (the trace at the failure point is exactly one smoothing event)
and only then dies with an `IndexError` at `restriction[0]`, i.e. after
partial execution including smoothing. -/
theorem c4_counterexample_no_eager_error :
    errInfo (mg exCtxBad exVz) = some (PyErr.indexError, [Event.smoothE 0 2]) := by
  rfl

/-- C4 as amended: `mg` performs no configuration validation and defines no
`ConfigurationError`; with `N_levels = 2` and an empty transfer-operator list,
the run executes the level-0 pre-smoothing and then aborts with a Python
`IndexError` at `restriction[0]` - detection is not eager and smoothing has
already occurred. -/
theorem c4_no_eager_validation (ctx : Ctx) (uh : Vec) (h2 : ctx.Nlevels = 2)
    (hr : ctx.restriction = []) (hA : 1 ≤ ctx.Ahlist.length) (hcy : 1 ≤ ctx.Ncycles) :
    ∃ st, mg ctx uh = Except.error (PyErr.indexError, st) ∧
      st.events = [Event.smoothE 0 ctx.nu] :=
  mg_mismatch ctx uh h2 hr hA hcy

/-- Witness for the amended C4 at the concrete mismatched instance. -/
theorem c4_no_eager_validation_witness :
    ∃ st, mg exCtxBad exVz = Except.error (PyErr.indexError, st) ∧
      st.events = [Event.smoothE 0 exCtxBad.nu] :=
  c4_no_eager_validation exCtxBad exVz rfl rfl (by decide) (by decide)

/-- A single-level configuration. -/
def exCtx1 : Ctx :=
  { Ahlist := [exMatF], bh := exVb, prolongation := [], restriction := [],
    Ncycles := 2, Nlevels := 1, nu := 2, prims := exPrims }

/-- C10: with `N_levels = 1` the engine raises no error; every cycle skips all
smoothing, restriction and prolongation (the trace is just direct solve and
report, repeated), overwrites `u[0]` with the exact direct solve of
`A[0], b[0]` - the result does not depend on the caller's initial guess - and
returns that exact solution after `N_cycles` cycles, reporting the residual
each cycle. -/
theorem c10_single_level (ctx : Ctx) (uh : Vec) (h1 : ctx.Nlevels = 1)
    (hA : 1 ≤ ctx.Ahlist.length) (hcy : 1 ≤ ctx.Ncycles) :
    ∃ stF, mg ctx uh = Except.ok
        (some (ctx.prims.direct (mfetch ctx.Ahlist 0) ctx.bh), stF) ∧
      stF.events = (List.range ctx.Ncycles).flatMap
        (fun _ => [Event.directE, Event.reportE]) ∧
      stF.reports = List.replicate ctx.Ncycles (residual ctx.prims (mfetch ctx.Ahlist 0)
        ctx.bh (ctx.prims.direct (mfetch ctx.Ahlist 0) ctx.bh)) ∧
      (∀ uh2 : Vec, mg ctx uh2 = mg ctx uh) := by
  obtain ⟨n, hn⟩ : ∃ n, ctx.Ncycles = n + 1 := ⟨ctx.Ncycles - 1, by omega⟩
  have key : ∀ w : Vec, mg ctx w = Except.ok
      (some (ctx.prims.direct (mfetch ctx.Ahlist 0) ctx.bh),
       { blist := [some ctx.bh],
         uhlist := [some (ctx.prims.direct (mfetch ctx.Ahlist 0) ctx.bh)],
         events := (List.range ctx.Ncycles).flatMap
           (fun _ => [Event.directE, Event.reportE]),
         reports := List.replicate ctx.Ncycles (residual ctx.prims (mfetch ctx.Ahlist 0)
           ctx.bh (ctx.prims.direct (mfetch ctx.Ahlist 0) ctx.bh)) }) := by
    intro w
    have hafter := mg_one_after ctx w h1 hA n
    rw [← hn] at hafter
    simp [mg, hafter]
  exact ⟨_, key uh, rfl, rfl, fun uh2 => (key uh2).trans (key uh).symm⟩

/-- Witness for C10 at the concrete single-level instance. -/
theorem c10_single_level_witness :
    ∃ stF, mg exCtx1 exVz = Except.ok
        (some (exCtx1.prims.direct (mfetch exCtx1.Ahlist 0) exCtx1.bh), stF) ∧
      stF.events = (List.range exCtx1.Ncycles).flatMap
        (fun _ => [Event.directE, Event.reportE]) ∧
      stF.reports = List.replicate exCtx1.Ncycles (residual exCtx1.prims
        (mfetch exCtx1.Ahlist 0) exCtx1.bh
        (exCtx1.prims.direct (mfetch exCtx1.Ahlist 0) exCtx1.bh)) ∧
      (∀ uh2 : Vec, mg exCtx1 uh2 = mg exCtx1 exVz) :=
  c10_single_level exCtx1 exVz rfl (by decide) (by decide)

theorem ofetch_congr (l l' : List (Option Vec)) (i : ℕ) (h : l[i]? = l'[i]?) :
    ofetch l i = ofetch l' i := by
  simp [ofetch, h]

/-- Two cycle-entry states that agree on the fine solution buffers and on the
finest RHS produce cycles with identical buffer contents: the cycle never
reads the incoming coarse RHS buffers nor the incoming coarsest solution. -/
theorem cycle_state_congr (ctx : Ctx) (st st' : St) (hcg : GoodCtx ctx)
    (hst : GoodSt ctx st) (hst' : GoodSt ctx st')
    (hu : ∀ j, j ≤ ctx.Nlevels - 2 → uOf st j = uOf st' j)
    (huq : ∀ j : ℕ, ctx.Nlevels - 1 < j → st.uhlist[j]? = st'.uhlist[j]?)
    (hb0 : bOf st 0 = bOf st' 0)
    (s2 s2' : St) (h2 : mgCycle ctx st = Except.ok s2)
    (h2' : mgCycle ctx st' = Except.ok s2') :
    (∀ j : ℕ, s2.uhlist[j]? = s2'.uhlist[j]?) ∧
    (∀ j : ℕ, s2.blist[j]? = s2'.blist[j]?) := by
  obtain ⟨sA, hA, houtA⟩ := mgCycle_spec ctx st hcg hst
  obtain ⟨sB, hB, houtB⟩ := mgCycle_spec ctx st' hcg hst'
  have hsA : sA = s2 := by
    have := hA.symm.trans h2
    exact Except.ok.inj this
  have hsB : sB = s2' := by
    have := hB.symm.trans h2'
    exact Except.ok.inj this
  subst hsA
  subst hsB
  obtain ⟨_, _, hA3, hA4, _, _⟩ := houtA
  obtain ⟨_, _, hB3, hB4, _, _⟩ := houtB
  obtain ⟨hN, _, _, _⟩ := hcg
  obtain ⟨hstb, hstu, _, w, hw⟩ := hst
  obtain ⟨hstb', hstu', _, w', hw'⟩ := hst'
  constructor
  · intro j
    rw [hA3 j, hB3 j]
    by_cases hj : j ≤ ctx.Nlevels - 1
    · rw [if_pos hj, if_pos hj,
        postU_congr ctx ctx st st' rfl rfl rfl rfl rfl rfl rfl hu hb0 j]
    · rw [if_neg hj, if_neg hj, huq j (by omega)]
  · intro j
    rw [hA4 j, hB4 j]
    by_cases hj : 1 ≤ j ∧ j ≤ ctx.Nlevels - 1
    · rw [if_pos hj, if_pos hj,
        specB_congr ctx ctx st st' rfl rfl rfl rfl rfl hu hb0 j (by omega)]
    · rw [if_neg hj, if_neg hj]
      rcases Nat.eq_zero_or_pos j with hj0 | hj0
      · subst hj0
        rw [hw, hw']
        have hwv : w = w' := by
          have e1 : bOf st 0 = w := ofetch_eq _ _ _ hw
          have e2 : bOf st' 0 = w' := ofetch_eq _ _ _ hw'
          rw [← e1, ← e2, hb0]
        rw [hwv]
      · have hjN : ctx.Nlevels ≤ j := by omega
        rw [List.getElem?_eq_none_iff.mpr (by omega),
          List.getElem?_eq_none_iff.mpr (by omega)]

/-- Conclusion of claim C6: across the cycle loop, the state entering cycle
`k+1` is exactly the state cycle `k` left (warm start, no reset); every
solution buffer ends each cycle at its ascent value computed from the carried
state; every coarse RHS buffer is freshly overwritten each cycle with that
cycle's restricted residual; the coarsest solution is recomputed by the
direct solver each cycle; and the cycle output is independent of the incoming
coarse RHS buffers and of the incoming coarsest solution buffer. -/
def C6Concl (ctx : Ctx) (uh : Vec) : Prop :=
  (∀ k : ℕ, mgCycle ctx (stSeq ctx uh k) = Except.ok (stSeq ctx uh (k + 1))) ∧
  (∀ k : ℕ, ∀ j, j ≤ ctx.Nlevels - 1 →
    (stSeq ctx uh (k + 1)).uhlist[j]? = some (some (postU ctx (stSeq ctx uh k) j))) ∧
  (∀ k : ℕ, ∀ i, 1 ≤ i → i ≤ ctx.Nlevels - 1 →
    (stSeq ctx uh (k + 1)).blist[i]? = some (some (specB ctx (stSeq ctx uh k) i))) ∧
  (∀ k : ℕ, (stSeq ctx uh (k + 1)).uhlist[ctx.Nlevels - 1]? =
    some (some (ctx.prims.direct (Alvl ctx (ctx.Nlevels - 1))
      (specB ctx (stSeq ctx uh k) (ctx.Nlevels - 1))))) ∧
  (∀ st st' : St, GoodSt ctx st → GoodSt ctx st' → st.uhlist = st'.uhlist →
    st.blist[0]? = st'.blist[0]? →
    ∀ s2 s2', mgCycle ctx st = Except.ok s2 → mgCycle ctx st' = Except.ok s2' →
      (∀ j : ℕ, s2.uhlist[j]? = s2'.uhlist[j]?) ∧
      (∀ j : ℕ, s2.blist[j]? = s2'.blist[j]?)) ∧
  (∀ (st : St) (w : Option Vec), GoodSt ctx st →
    ∀ s2 s2', mgCycle ctx st = Except.ok s2 →
      mgCycle ctx { st with uhlist := st.uhlist.set (ctx.Nlevels - 1) w } =
        Except.ok s2' →
      (∀ j : ℕ, s2.uhlist[j]? = s2'.uhlist[j]?) ∧
      (∀ j : ℕ, s2.blist[j]? = s2'.blist[j]?))

/-- C6: solution buffers are warm-started across V-cycles and never reset;
each coarse RHS buffer is fully overwritten every cycle with no accumulation
and no dependence on its previous content; and the coarsest solution is
recomputed fresh by the direct solver every cycle with no warm start. -/
theorem c6_buffer_reuse (ctx : Ctx) (uh : Vec) (hc : GoodCtx ctx) : C6Concl ctx uh := by
  have hstep : ∀ k : ℕ, mgCycle ctx (stSeq ctx uh k) = Except.ok (stSeq ctx uh (k + 1)) := by
    intro k
    obtain ⟨hA, hgood, _, _, _⟩ := run_master ctx uh hc k
    obtain ⟨s2, hcyc, _⟩ := mgCycle_spec ctx (stSeq ctx uh k) hc hgood
    have hA1 : mgAfter ctx uh (k + 1) = Except.ok s2 := by
      rw [mgAfter_succ_ok ctx uh k _ hA]
      exact hcyc
    have hs : stSeq ctx uh (k + 1) = s2 := by simp [stSeq, hA1]
    rw [hs]
    exact hcyc
  have hN := hc.1
  refine ⟨hstep, ?_, ?_, ?_, ?_, ?_⟩
  · intro k j hj
    obtain ⟨_, _, h3, _, _, _⟩ := stSeq_cycle ctx uh hc k
    rw [h3 j, if_pos hj]
  · intro k i h1 h2
    obtain ⟨_, _, _, h4, _, _⟩ := stSeq_cycle ctx uh hc k
    rw [h4 i, if_pos ⟨h1, h2⟩]
  · intro k
    obtain ⟨_, _, h3, _, _, _⟩ := stSeq_cycle ctx uh hc k
    rw [h3 _, if_pos (le_refl _), postU_top]
    rfl
  · intro st st' hst hst' hu hb0 s2 s2' h2 h2'
    refine cycle_state_congr ctx st st' hc hst hst' ?_ ?_ ?_ s2 s2' h2 h2'
    · intro j _
      simp [uOf, hu]
    · intro j _
      rw [hu]
    · exact ofetch_congr _ _ 0 hb0
  · intro st w hst s2 s2' h2 h2'
    have hst' : GoodSt ctx { st with uhlist := st.uhlist.set (ctx.Nlevels - 1) w } := by
      obtain ⟨hb, hul, hue, hw⟩ := hst
      refine ⟨hb, by simpa using hul, ?_, hw⟩
      intro i hi
      obtain ⟨v, hv⟩ := hue i hi
      refine ⟨v, ?_⟩
      show (st.uhlist.set (ctx.Nlevels - 1) w)[i]? = _
      rw [List.getElem?_set_ne (by omega)]
      exact hv
    refine cycle_state_congr ctx st _ hc hst hst' ?_ ?_ rfl s2 s2' h2 h2'
    · intro j hj
      refine ofetch_congr _ _ j ?_
      show st.uhlist[j]? = (st.uhlist.set (ctx.Nlevels - 1) w)[j]?
      rw [List.getElem?_set_ne (by omega)]
    · intro j hj
      show st.uhlist[j]? = (st.uhlist.set (ctx.Nlevels - 1) w)[j]?
      rw [List.getElem?_set_ne (by omega)]

/-- Witness for C6 at the concrete two-level instance. -/
theorem c6_buffer_reuse_witness : C6Concl exCtx exVz :=
  c6_buffer_reuse exCtx exVz exCtx_good

/-- Conclusion of claim C7.  The system matrices and transfer operators live
in the read-only `Ctx` of the embedding precisely because no statement of
`mg` writes them; what remains to check on the mutable state is: the run
succeeds and returns the final engine state; the finest RHS slot holds the
caller's unmodified `bh` at every cycle boundary (it is never overwritten);
and each engine operation writes only the buffer slot its Python statement
assigns - the smoother call inside descent and ascent mutates only `uhlist`
at its own level (its `x` argument), restriction writes only `blist[i+1]`,
the coarse solve writes only `uhlist[N_levels-1]`, the report writes no
buffer, and the init loop writes only `uhlist[i]`. -/
def C7Concl (ctx : Ctx) (uh : Vec) : Prop :=
  (∃ v : Vec, mg ctx uh = Except.ok (some v, stSeq ctx uh ctx.Ncycles)) ∧
  (∀ k : ℕ, (stSeq ctx uh k).blist[0]? = some (some ctx.bh)) ∧
  (∀ (i : ℕ) (st s1 : St), descent ctx i st = Except.ok s1 →
    (∀ j, j ≠ i → s1.uhlist[j]? = st.uhlist[j]?) ∧
    (∀ j, j ≠ i + 1 → s1.blist[j]? = st.blist[j]?) ∧ s1.reports = st.reports) ∧
  (∀ st s1 : St, coarse ctx st = Except.ok s1 →
    (∀ j, j ≠ ctx.Nlevels - 1 → s1.uhlist[j]? = st.uhlist[j]?) ∧
    s1.blist = st.blist ∧ s1.reports = st.reports) ∧
  (∀ (j0 : ℕ) (st s1 : St), ascent ctx j0 st = Except.ok s1 →
    (∀ j, j ≠ j0 → s1.uhlist[j]? = st.uhlist[j]?) ∧
    s1.blist = st.blist ∧ s1.reports = st.reports) ∧
  (∀ st s1 : St, reportStep ctx st = Except.ok s1 →
    s1.uhlist = st.uhlist ∧ s1.blist = st.blist) ∧
  (∀ (i : ℕ) (st s1 : St), initStep ctx i st = Except.ok s1 →
    (∀ j, j ≠ i → s1.uhlist[j]? = st.uhlist[j]?) ∧
    s1.blist = st.blist ∧ s1.reports = st.reports)

/-- C7: the system matrices, the prolongation and restriction operators and
the finest RHS `bh` are left unchanged by a run of `mg`; only the solution
buffers and the coarse RHS buffers are mutated during cycling, and the
smoother mutates only its `x` argument. -/
theorem c7_read_only_frame (ctx : Ctx) (uh : Vec) (hc : GoodCtx ctx) : C7Concl ctx uh :=
  ⟨⟨_, mg_master ctx uh hc⟩, fun k => (run_master ctx uh hc k).2.2.1,
    descent_frame ctx, coarse_frame ctx, ascent_frame ctx, report_frame ctx,
    initStep_frame ctx⟩

/-- Witness for C7 at the concrete two-level instance. -/
theorem c7_read_only_frame_witness : C7Concl exCtx exVz :=
  c7_read_only_frame exCtx exVz exCtx_good

theorem uInit_congr (c₁ c₂ : Ctx) (uh : Vec) (hR : c₁.restriction = c₂.restriction) :
    ∀ i, uInit c₁ uh i = uInit c₂ uh i := by
  intro i
  induction i with
  | zero => rfl
  | succ i ih =>
    simp only [uInit]
    rw [ih, Rop, Rop, hR]

/-- Two configurations that differ at most in the norm primitive produce runs
with identical traces and identical buffer contents after every cycle, and
both always execute their full cycle count: the residual monitor gates
nothing. -/
theorem vnorm_independent (ctx ctx' : Ctx) (uh : Vec) (hc : GoodCtx ctx)
    (hA : ctx'.Ahlist = ctx.Ahlist) (hbh : ctx'.bh = ctx.bh)
    (hP : ctx'.prolongation = ctx.prolongation) (hR : ctx'.restriction = ctx.restriction)
    (hN : ctx'.Nlevels = ctx.Nlevels) (hn : ctx'.nu = ctx.nu)
    (hsm : ctx'.prims.smooth = ctx.prims.smooth)
    (hd : ctx'.prims.direct = ctx.prims.direct) :
    ∀ k, (stSeq ctx' uh k).events = (stSeq ctx uh k).events ∧
      (∀ j : ℕ, (stSeq ctx' uh k).uhlist[j]? = (stSeq ctx uh k).uhlist[j]?) ∧
      (∀ j : ℕ, (stSeq ctx' uh k).blist[j]? = (stSeq ctx uh k).blist[j]?) ∧
      (stSeq ctx' uh k).reports.length = k := by
  have hcg : GoodCtx ctx' := by
    refine ⟨by rw [hN]; exact hc.1, by rw [hA, hN]; exact hc.2.1,
      by rw [hR, hN]; exact hc.2.2.1, by rw [hP, hN]; exact hc.2.2.2⟩
  intro k
  induction k with
  | zero =>
    obtain ⟨sA, hrunA, _, _, hbA, huA, hevA, hrepA⟩ := mgInit_spec ctx uh hc
    obtain ⟨sB, hrunB, _, _, hbB, huB, hevB, hrepB⟩ := mgInit_spec ctx' uh hcg
    have hsA : stSeq ctx uh 0 = sA := by
      simp [stSeq, mgAfter_zero, hrunA]
    have hsB : stSeq ctx' uh 0 = sB := by
      simp [stSeq, mgAfter_zero, hrunB]
    rw [hsA, hsB]
    refine ⟨?_, ?_, ?_, ?_⟩
    · rw [hevA, hevB, hN]
    · intro j
      rw [huA j, huB j, hN, uInit_congr ctx' ctx uh hR j]
    · intro j
      rw [hbA j, hbB j, hN, hbh]
    · have := (run_master ctx' uh hcg 0).2.2.2.2
      rw [hsB] at this
      exact this
  | succ k ih =>
    obtain ⟨ihe, ihu, ihb, ihr⟩ := ih
    obtain ⟨_, _, hA3, hA4, hA5, hA6⟩ := stSeq_cycle ctx uh hc k
    obtain ⟨_, _, hB3, hB4, hB5, hB6⟩ := stSeq_cycle ctx' uh hcg k
    have hufun : ∀ j, j ≤ ctx'.Nlevels - 2 →
        uOf (stSeq ctx' uh k) j = uOf (stSeq ctx uh k) j :=
      fun j _ => ofetch_congr _ _ j (ihu j)
    have hbfun : bOf (stSeq ctx' uh k) 0 = bOf (stSeq ctx uh k) 0 :=
      ofetch_congr _ _ 0 (ihb 0)
    refine ⟨?_, ?_, ?_, ?_⟩
    · rw [hA5, hB5, ihe, hN, hn]
    · intro j
      rw [hA3 j, hB3 j, hN]
      by_cases hj : j ≤ ctx.Nlevels - 1
      · rw [if_pos hj, if_pos hj,
          postU_congr ctx' ctx (stSeq ctx' uh k) (stSeq ctx uh k) hN hA hR hP hn hsm hd
            hufun hbfun j]
      · rw [if_neg hj, if_neg hj, ihu j]
    · intro j
      rw [hA4 j, hB4 j, hN]
      by_cases hj : 1 ≤ j ∧ j ≤ ctx.Nlevels - 1
      · rw [if_pos hj, if_pos hj,
          specB_congr ctx' ctx (stSeq ctx' uh k) (stSeq ctx uh k) hN hA hR hn hsm
            hufun hbfun j (by rw [hN]; omega)]
      · rw [if_neg hj, if_neg hj, ihb j]
    · rw [hB6]
      simp [ihr]

/-- Replace only the norm primitive of a configuration. -/
def setVnorm (ctx : Ctx) (g : Vec → ℚ) : Ctx :=
  { ctx with prims := { ctx.prims with vnorm := g } }

/-- Conclusion of claim C8: the run succeeds; the report list has exactly
`N_cycles` entries; entry `k` is `residual(A[0], bh, u[0])` computed with the
caller's original `bh` against the level-0 solution after cycle `k+1`; and
replacing the norm primitive by any function `g` changes neither the trace
nor any buffer content of any cycle, and still yields exactly `k` reports
after `k` cycles - the monitor never gates termination. -/
def C8Concl (ctx : Ctx) (uh : Vec) : Prop :=
  (∃ v : Vec, mg ctx uh = Except.ok (some v, stSeq ctx uh ctx.Ncycles)) ∧
  (stSeq ctx uh ctx.Ncycles).reports.length = ctx.Ncycles ∧
  (stSeq ctx uh ctx.Ncycles).reports = (List.range ctx.Ncycles).map
    (fun j => residual ctx.prims (Alvl ctx 0) ctx.bh (uOf (stSeq ctx uh (j + 1)) 0)) ∧
  (∀ (g : Vec → ℚ) (k : ℕ),
    (stSeq (setVnorm ctx g) uh k).events = (stSeq ctx uh k).events ∧
    (∀ j : ℕ, (stSeq (setVnorm ctx g) uh k).uhlist[j]? = (stSeq ctx uh k).uhlist[j]?) ∧
    (∀ j : ℕ, (stSeq (setVnorm ctx g) uh k).blist[j]? = (stSeq ctx uh k).blist[j]?) ∧
    (stSeq (setVnorm ctx g) uh k).reports.length = k)

/-- C8: the engine performs exactly `N_cycles` cycles regardless of residual
magnitude - the residual monitor never gates termination - and after each
cycle reports the norm of `b_original - A[0] * u[0]` computed against the
caller's original right-hand side. -/
theorem c8_fixed_cycles_reporting (ctx : Ctx) (uh : Vec) (hc : GoodCtx ctx) :
    C8Concl ctx uh := by
  refine ⟨⟨_, mg_master ctx uh hc⟩, (run_master ctx uh hc ctx.Ncycles).2.2.2.2,
    reports_char ctx uh hc ctx.Ncycles, ?_⟩
  intro g
  exact vnorm_independent ctx (setVnorm ctx g) uh hc rfl rfl rfl rfl rfl rfl rfl rfl

/-- Witness for C8 at the concrete two-level instance. -/
theorem c8_fixed_cycles_reporting_witness : C8Concl exCtx exVz :=
  c8_fixed_cycles_reporting exCtx exVz exCtx_good

/-- Conclusion of claim C9: at every cycle boundary the finest solution is
the zero vector and the report list holds only zeros; in particular the run
returns a zero vector and `N_cycles` zero reports. -/
def C9Concl (ctx : Ctx) (uh : Vec) : Prop :=
  (∀ k : ℕ, isZero (uOf (stSeq ctx uh k) 0)) ∧
  (∀ k : ℕ, (stSeq ctx uh k).reports = List.replicate k 0) ∧
  (∀ (ov : Option Vec) (stF : St), mg ctx uh = Except.ok (ov, stF) →
    (∀ v, ov = some v → isZero v) ∧ stF.reports = List.replicate ctx.Ncycles 0)

/-- C9: for every valid hierarchy, if the finest RHS and the initial guess
are zero vectors and the linear-algebra primitives are exact (they map zero
data to zero), then every V-cycle leaves the finest solution at zero and
every reported residual norm is zero. -/
theorem c9_zero_rhs (ctx : Ctx) (uh : Vec) (hc : GoodCtx ctx) (hz : ZeroPrims ctx)
    (hbz : isZero ctx.bh) (huz : isZero uh) : C9Concl ctx uh := by
  have hN := hc.1
  have hZ : ∀ k : ℕ, ZL (stSeq ctx uh k).uhlist ∧ ZL (stSeq ctx uh k).blist := by
    intro k
    induction k with
    | zero =>
      obtain ⟨s0, hrun, _, _, hbchar, huchar, _, _⟩ := mgInit_spec ctx uh hc
      have hs0 : stSeq ctx uh 0 = s0 := by
        simp [stSeq, mgAfter_zero, hrun]
      rw [hs0]
      constructor
      · intro i v hv
        rw [huchar i] at hv
        by_cases h1 : i ≤ ctx.Nlevels - 2
        · rw [if_pos h1] at hv
          have hvv := Option.some_injective _ (Option.some_injective _ hv)
          rw [← hvv]
          exact uInit_zero ctx uh huz i
        · rw [if_neg h1] at hv
          by_cases h2 : i < ctx.Nlevels
          · rw [if_pos h2] at hv
            simp at hv
          · rw [if_neg h2] at hv
            simp at hv
      · intro i v hv
        rw [hbchar i] at hv
        by_cases h1 : i = 0
        · rw [if_pos h1] at hv
          have hvv := Option.some_injective _ (Option.some_injective _ hv)
          rw [← hvv]
          exact hbz
        · rw [if_neg h1] at hv
          by_cases h2 : i < ctx.Nlevels
          · rw [if_pos h2] at hv
            simp at hv
          · rw [if_neg h2] at hv
            simp at hv
    | succ k ih =>
      exact cycle_zero ctx _ _ hz ih.1 ih.2 (stSeq_cycle ctx uh hc k)
  refine ⟨fun k => ofetch_isZero _ (hZ k).1 0, ?_, ?_⟩
  · intro k
    induction k with
    | zero =>
      have hlen := (run_master ctx uh hc 0).2.2.2.2
      simpa using List.eq_nil_of_length_eq_zero hlen
    | succ k ih =>
      obtain ⟨_, _, _, _, _, ho6⟩ := stSeq_cycle ctx uh hc k
      have hval : residual ctx.prims (Alvl ctx 0) ctx.bh (postU ctx (stSeq ctx uh k) 0)
          = 0 := by
        refine hz.2.2 _ ?_
        exact vsub_isZero _ _ hbz (matVec_isZero _ _
          (postAux_zero ctx _ hz (hZ k).1 (hZ k).2 _))
      rw [ho6, ih, hval, ← List.replicate_succ']
  · intro ov stF hmg
    rw [mg_master ctx uh hc] at hmg
    injection hmg with h
    have hov : some (uOf (stSeq ctx uh ctx.Ncycles) 0) = ov := congrArg Prod.fst h
    have hst : stSeq ctx uh ctx.Ncycles = stF := congrArg Prod.snd h
    constructor
    · intro v hv
      rw [← hov] at hv
      have hvv := Option.some_injective _ hv
      rw [← hvv]
      exact ofetch_isZero _ (hZ ctx.Ncycles).1 0
    · rw [← hst]
      induction ctx.Ncycles with
      | zero =>
        have hlen := (run_master ctx uh hc 0).2.2.2.2
        simpa using List.eq_nil_of_length_eq_zero hlen
      | succ k ih =>
        obtain ⟨_, _, _, _, _, ho6⟩ := stSeq_cycle ctx uh hc k
        have hval : residual ctx.prims (Alvl ctx 0) ctx.bh (postU ctx (stSeq ctx uh k) 0)
            = 0 := by
          refine hz.2.2 _ ?_
          exact vsub_isZero _ _ hbz (matVec_isZero _ _
            (postAux_zero ctx _ hz (hZ k).1 (hZ k).2 _))
        rw [ho6, ih, hval, ← List.replicate_succ']

/-- A structurally valid two-level configuration with zero RHS. -/
def exCtxZ : Ctx :=
  { Ahlist := [exMatF, exMatC], bh := exVz, prolongation := [exP], restriction := [exP],
    Ncycles := 1, Nlevels := 2, nu := 2, prims := exPrims }

theorem exCtxZ_good : GoodCtx exCtxZ := ⟨by norm_num [exCtxZ], rfl, rfl, rfl⟩

theorem exCtxZ_zero_prims : ZeroPrims exCtxZ := by
  refine ⟨fun _A _b x _hb hx => hx, fun _A b hb => hb, ?_⟩
  intro v hv
  show (Finset.range v.dim).sum (fun i => v.ent i * v.ent i) = 0
  exact Finset.sum_eq_zero (fun i _ => by rw [hv i, mul_zero])

theorem exVz_zero : isZero exVz := fun _ => rfl

/-- Witness for C9 at the concrete two-level instance with zero data. -/
theorem c9_zero_rhs_witness : C9Concl exCtxZ exVz :=
  c9_zero_rhs exCtxZ exVz exCtxZ_good exCtxZ_zero_prims exVz_zero exVz_zero

end GMG
